import Mathlib

/-!
# awsemfexporter: grouping of metric data points

A shallow embedding of `exporter/awsemfexporter/grouped_metric.go`, and of the resolvers
of `util.go` that `util_test.go` tests, which are modelled from the spec.

Go maps are embedded as association lists read through `mapGet`, which returns the first
binding of a key; `mapSet` overwrites that binding in place or appends a new one, and
`mapDelete` removes every binding of the key.  A map handed to a function is taken to be
allocated (writing to a nil map is not modelled), and the label map of a data point is
taken to be its own object, shared with no other point and with no group already in the
buckets.  Functions that mutate an argument return the mutated value next to their Go
result; a nil `*Config` is `none`, and dereferencing it ends the call with a panic.
-/

set_option autoImplicit false

namespace Awsemf

/-! ## Go maps -/

/-- The read `m[k]` with its `ok` flag: the value bound to `k`, if any. -/
def mapGet {κ α : Type} [DecidableEq κ] : List (κ × α) → κ → Option α
  | [], _ => none
  | (k', v) :: rest, k => if k' = k then some v else mapGet rest k

/-- The write `m[k] = v`: replaces the binding of `k`, or adds one. -/
def mapSet {κ α : Type} [DecidableEq κ] : List (κ × α) → κ → α → List (κ × α)
  | [], k, v => [(k, v)]
  | (k', v') :: rest, k, v => if k' = k then (k, v) :: rest else (k', v') :: mapSet rest k v

/-- The builtin `delete(m, k)`. -/
def mapDelete {κ α : Type} [DecidableEq κ] : List (κ × α) → κ → List (κ × α)
  | [], _ => []
  | (k', v') :: rest, k => if k' = k then mapDelete rest k else (k', v') :: mapDelete rest k

/-- The builtin `len(m)`: the number of keys of the map. -/
def mapLen {κ α : Type} [DecidableEq κ] (m : List (κ × α)) : Nat :=
  ((m.map Prod.fst).dedup).length

/-! ## Data model -/

/-- A label set, `map[string]string`. -/
abbrev Labels := List (String × String)

/-- Modelled from the spec: the declaration of `MetricDescriptor` is not in the source; the
spec gives the descriptor table as keyed by metric name with a unit and an overwrite flag,
the two fields `translateUnit` reads. -/
structure MetricDescriptor where
  unit : String
  overwrite : Bool
  deriving DecidableEq, Repr

/-- Modelled from the spec: the declaration of `GroupedMetricMetadata` is not in the source;
the spec gives `Namespace`, `TimestampMs` and further grouping dimensions, here the
destination identifiers. -/
structure GroupedMetricMetadata where
  Namespace : String
  TimestampMs : Int
  LogGroup : String
  LogStream : String
  deriving DecidableEq, Repr

/-- Modelled from the spec: the declaration of `CWMetricMetadata` is not in the source; the
code reads its embedded `GroupedMetricMetadata` and writes `TimestampMs` through it. -/
structure CWMetricMetadata where
  GroupedMetricMetadata : GroupedMetricMetadata
  InstrumentationLibraryName : String
  deriving DecidableEq, Repr

/-- Modelled from the spec: the declaration of `Config` is not in the source; the spec lists
the two destination templates and the flag enabling the structured object enrichment. -/
structure Config where
  LogGroupName : String
  LogStreamName : String
  CreateEKSFargateKubernetesObject : Bool
  deriving DecidableEq, Repr

/-- The dynamically typed `Value interface{}` of a data point, which the code only copies:
an integer, a double given by its bit pattern, or histogram statistics. -/
inductive Value where
  | intVal (n : Int)
  | doubleVal (bits : Nat)
  | statsVal (count : Nat) (sumBits minBits maxBits : Nat)
  deriving DecidableEq, Repr

/-- Modelled from the spec: the declaration of `DataPoint` is not in the source; the spec
gives it labels, a value and a millisecond timestamp where 0 means unset. -/
structure DataPoint where
  Labels : Labels
  Value : Value
  TimestampMs : Int
  deriving DecidableEq, Repr

/-- The `pdata.Metric` as the code reads it: `Name()`, `Unit()`, and the sequence that
`getDataPoints` extracts from it, `none` for a nil sequence; each element is what `At(i)`
returns, the point and its retained flag. -/
structure Metric where
  Name : String
  Unit : String
  DataPoints : Option (List (DataPoint × Bool))
  deriving DecidableEq, Repr

/-- MetricInfo defines value and unit for OT Metrics. -/
structure MetricInfo where
  Value : Value
  Unit : String
  deriving DecidableEq, Repr

/-- GroupedMetric defines set of metrics with same namespace, timestamp and labels. -/
structure GroupedMetric where
  Labels : Labels
  Metrics : List (String × MetricInfo)
  Metadata : CWMetricMetadata
  deriving DecidableEq, Repr

/-! ## translateUnit -/

/-- The function `translateUnit` (lines 226-246): the descriptor's unit when the metric has
a descriptor and its own unit is empty or the descriptor overwrites, else the fixed mapping. -/
def translateUnit (metric : Metric) (descriptor : List (String × MetricDescriptor)) : String :=
  let unit := metric.Unit
  let early : Option String :=
    match mapGet descriptor metric.Name with
    | some d => if unit = "" ∨ d.overwrite = true then some d.unit else none
    | none => none
  match early with
  | some u => u
  | none =>
    if unit = "ms" then "Milliseconds"
    else if unit = "s" then "Seconds"
    else if unit = "us" then "Microseconds"
    else if unit = "By" then "Bytes"
    else if unit = "Bi" then "Bits"
    else unit

/-! ## JSON values and `json.Marshal` -/

/-- What `json.Unmarshal` stores in an `interface{}`: nil, a bool, a number (kept as its
literal text), a string, a list, or a `map[string]interface{}`. -/
inductive JVal where
  | null
  | bool (b : Bool)
  | num (text : String)
  | str (s : String)
  | arr (xs : List JVal)
  | obj (kvs : List (String × JVal))

/-- The double quote character. -/
def dquote : Char := Char.ofNat 34

/-- The backslash character. -/
def bslash : Char := Char.ofNat 92

/-- A hexadecimal digit, lower case. -/
def hexDigit (n : Nat) : Char :=
  if n < 10 then Char.ofNat (48 + n) else Char.ofNat (87 + n)

/-- The escape `\uXXXX` of a code point below 0x10000. -/
def unicodeEscape (n : Nat) : List Char :=
  [bslash, 'u', hexDigit (n / 4096 % 16), hexDigit (n / 256 % 16), hexDigit (n / 16 % 16),
    hexDigit (n % 16)]

/-- How `encoding/json` writes one character of a string: quote and backslash are escaped,
newline, carriage return and tab get their short escapes, and the other control characters,
the HTML characters `<`, `>`, `&` and the line separators U+2028, U+2029 are written as
`\uXXXX`. -/
def escapeChar (c : Char) : List Char :=
  if c = dquote then [bslash, dquote]
  else if c = bslash then [bslash, bslash]
  else if c = Char.ofNat 10 then [bslash, 'n']
  else if c = Char.ofNat 13 then [bslash, 'r']
  else if c = Char.ofNat 9 then [bslash, 't']
  else if c.toNat < 32 ∨ c = '<' ∨ c = '>' ∨ c = '&' ∨ c.toNat = 8232 ∨ c.toNat = 8233 then
    unicodeEscape c.toNat
  else [c]

/-- A JSON string literal. -/
def jsonQuote (s : String) : String :=
  String.mk (dquote :: (s.toList.flatMap escapeChar ++ [dquote]))

/-- The order of map keys in the output of `json.Marshal`, and of the labels in a key. -/
def keyLe (a b : String) : Prop := a.toList ≤ b.toList

instance : DecidableRel keyLe := fun a b => inferInstanceAs (Decidable (a.toList ≤ b.toList))

instance keyLe_isTotal {α : Type} :
    IsTotal (String × α) (fun a b => keyLe a.1 b.1) :=
  ⟨fun a b => le_total a.1.toList b.1.toList⟩

instance keyLe_isTrans {α : Type} :
    IsTrans (String × α) (fun a b => keyLe a.1 b.1) :=
  ⟨fun a b c (hab : a.1.toList ≤ b.1.toList) (hbc : b.1.toList ≤ c.1.toList) =>
    le_trans hab hbc⟩

instance keyLt_isAntisymm {α : Type} :
    IsAntisymm (String × α) (fun a b => a.1.toList < b.1.toList) :=
  ⟨fun _ _ hab hba => absurd hab (lt_asymm hba)⟩

/-- Entries sorted by key. -/
def sortByKey {α : Type} (m : List (String × α)) : List (String × α) :=
  m.insertionSort (fun a b => keyLe a.1 b.1)

/-- The function `json.Marshal` on a decoded value; the members of an object are written in
the order of their keys. -/
def jsonMarshal : JVal → String
  | .null => "null"
  | .bool b => if b then "true" else "false"
  | .num text => text
  | .str s => jsonQuote s
  | .arr xs => "[" ++ ",".intercalate (marshalElems xs) ++ "]"
  | .obj kvs =>
    "\x7b" ++ ",".intercalate ((sortByKey (marshalMembers kvs)).map
      (fun p => jsonQuote p.1 ++ ":" ++ p.2)) ++ "\x7d"
where
  /-- The elements of a list, marshalled. -/
  marshalElems : List JVal → List String
    | [] => []
    | x :: xs => jsonMarshal x :: marshalElems xs
  /-- The members of an object, each value marshalled. -/
  marshalMembers : List (String × JVal) → List (String × String)
    | [] => []
    | (k, v) :: rest => (k, jsonMarshal v) :: marshalMembers rest

/-! ## Schema filling -/

mutual
/-- The body of `recursivelyFillInMap` (lines 185-220) on a value that holds a map, the
form in which the recursive call of line 194 receives `nestedObj`; no other value is ever
passed. -/
def recursivelyFillInMap.onValue : JVal → Labels → Labels × Except String (List (String × JVal))
  | .obj schema, labels =>
    match recursivelyFillInMap.loop schema (mapSet labels "dummy" "got to the start") schema with
    | (labels, .error err) => (labels, .error err)
    | (labels, .ok schema) => (mapSet labels "dummy" "got to the end", .ok schema)
  | _, labels => (labels, .ok [])
/-- The `range` loop of `recursivelyFillInMap` (lines 189-216) with the entries still to
visit, on the label map and the schema as they are then. -/
def recursivelyFillInMap.loop : List (String × JVal) → Labels → List (String × JVal) →
    Labels × Except String (List (String × JVal))
  | [], labels, schema => (labels, .ok schema)
  | (k, .obj nestedObj) :: rest, labels, schema =>
    match recursivelyFillInMap.onValue (.obj nestedObj) labels with
    | (labels, .error err) => (labels, .error err)
    | (labels, .ok filled) =>
      let schema := mapSet schema k (.obj filled)
      let schema := if mapLen filled = 0 then mapDelete schema k else schema
      recursivelyFillInMap.loop rest labels schema
  | (k, .str stringVal) :: rest, labels, schema =>
    match mapGet labels stringVal with
    | none => recursivelyFillInMap.loop rest labels (mapDelete schema k)
    | some labelVal => recursivelyFillInMap.loop rest labels (mapSet schema k (.str labelVal))
  | (_, _) :: _, labels, _ => (labels, .error "Non string, struct value found in schema")
end

/-- The function `recursivelyFillInMap` (lines 185-220).  It returns the label map, which it
writes `dummy` into, next to its Go result. -/
def recursivelyFillInMap (labels : Labels) (schema : List (String × JVal)) :
    Labels × Except String (List (String × JVal)) :=
  recursivelyFillInMap.onValue (.obj schema) labels

/-- The map `m` of `recursivelyFillInStruct` for the schema built at lines 133-148: what
`json.Unmarshal` decodes from `json.Marshal(schema)`.  The struct tags of `kubernetesObj`
and its two member structs give no key, so each member is named after its field; each leaf
holds the label to look up. -/
def kubernetesSchema : List (String × JVal) :=
  [("Host", .str "host_name"),
   ("Labels", .obj [("App", .str "app"), ("Pod-template-hash", .str "pod-template-hash")]),
   ("Namespace_name", .str "namespace_name"),
   ("Pod_id", .str "pod_id"),
   ("Pod_name", .str "pod_name"),
   ("Pod_owners", .obj [("Owner_kind", .str "owner_kind"), ("Owner_name", .str "owner_name")]),
   ("Service_name", .str "service_name")]

/-- The function `recursivelyFillInStruct` (lines 159-183), given the map `m` that the two
`encoding/json` calls at lines 160-166 produce from the schema. -/
def recursivelyFillInStruct (labels : Labels) (m : List (String × JVal)) :
    Labels × Except String String :=
  match recursivelyFillInMap labels m with
  | (labels, .error err) => (labels, .error err)
  | (labels, .ok m) => (labels, .ok (jsonMarshal (.obj m)))

/-- The function `addKubernetesWrapper` (lines 131-156): the label map after the call, and
the returned error if any.  On an error the assignment at line 151 has stored the empty
string. -/
def addKubernetesWrapper (labels : Labels) : Labels × Option String :=
  match recursivelyFillInStruct labels kubernetesSchema with
  | (labels, .error err) => (mapSet labels "kubernetes" "", some err)
  | (labels, .ok jsonString) => (mapSet labels "kubernetes" jsonString, none)

/-! ## Group keys -/

/-- The entries a `range` over the map visits: each key once, with its binding. -/
def mapEntries {κ α : Type} [DecidableEq κ] (m : List (κ × α)) : List (κ × α) :=
  go [] m
where
  /-- The entries whose key is not among `seen`. -/
  go (seen : List κ) : List (κ × α) → List (κ × α)
    | [] => []
    | (k, v) :: rest => if k ∈ seen then go seen rest else (k, v) :: go (k :: seen) rest

/-- Modelled from the spec: the key type of `internal/aws/metrics` is not in the source.  The
spec makes the key a hashable value derived from the grouping metadata and the label set,
equal for equal label sets whatever the insertion order and different for different ones:
the metadata and the labels in a canonical order. -/
structure Key where
  MetricMetadata : GroupedMetricMetadata
  MetricLabels : List (String × String)
  deriving DecidableEq, Repr

/-- Modelled from the spec: `aws.NewKey` of `internal/aws/metrics` is not in the source; it
collects the labels of the map and orders them by label name. -/
def NewKey (metricMetadata : GroupedMetricMetadata) (labels : Labels) : Key :=
  { MetricMetadata := metricMetadata, MetricLabels := sortByKey (mapEntries labels) }

/-- The function `groupedMetricKey` (lines 222-224). -/
def groupedMetricKey (metadata : GroupedMetricMetadata) (labels : Labels) : Key :=
  NewKey metadata labels

/-! ## addToGroupedMetric -/

/-- How a call ends: it returns a nil error, returns an error, or panics on dereferencing
a nil pointer. -/
inductive Outcome where
  | noError
  | error (msg : String)
  | nilDereference
  deriving DecidableEq, Repr

/-- The condition `b && config.CreateEKSFargateKubernetesObject` on the pointer `config`:
the right operand is evaluated, and a nil `config` dereferenced, only when `b` holds. -/
def andCreateEKSFargateKubernetesObject (b : Bool) (config : Option Config) : Option Bool :=
  if b then config.map (fun c => c.CreateEKSFargateKubernetesObject) else some false

/-- Lines 58-74 of `addToGroupedMetric`: the label map of the point after the optional
enrichment, and how the block ends. -/
def addToGroupedMetric.enrich (labels : Labels) (config : Option Config) : Labels × Outcome :=
  match mapGet labels "Type" with
  | some metricType =>
    match andCreateEKSFargateKubernetesObject (metricType = "Pod") config with
    | none => (labels, .nilDereference)
    | some true =>
      match addKubernetesWrapper labels with
      | (labels, some err) => (labels, .error err)
      | (labels, none) => (labels, .noError)
    | some false =>
      match andCreateEKSFargateKubernetesObject (metricType = "Container") config with
      | none => (labels, .nilDereference)
      | some true =>
        match addKubernetesWrapper labels with
        | (labels, some err) => (labels, .error err)
        | (labels, none) => (labels, .noError)
      | some false => (labels, .noError)
  | none => (labels, .noError)

/-- The state of the loop of `addToGroupedMetric`: the buckets, and the local copy of the
`metadata` parameter. -/
structure LoopState where
  groupedMetrics : List (Key × GroupedMetric)
  metadata : CWMetricMetadata
  deriving DecidableEq, Repr

/-- Lines 76-104 of `addToGroupedMetric`: the merge of a retained data point, with its
label map `labels` after line 74, into the buckets. -/
def addToGroupedMetric.merge (pmd : Metric) (descriptor : List (String × MetricDescriptor))
    (dp : DataPoint) (labels : Labels) (st : LoopState) : LoopState :=
  let metricName := pmd.Name
  let metric : MetricInfo := { Value := dp.Value, Unit := translateUnit pmd descriptor }
  let metadata : CWMetricMetadata :=
    if dp.TimestampMs > 0 then
      { st.metadata with
        GroupedMetricMetadata :=
          { st.metadata.GroupedMetricMetadata with TimestampMs := dp.TimestampMs } }
    else st.metadata
  let groupKey := groupedMetricKey metadata.GroupedMetricMetadata labels
  match mapGet st.groupedMetrics groupKey with
  | some group =>
    match mapGet group.Metrics metricName with
    | some _ => { groupedMetrics := st.groupedMetrics, metadata := metadata }
    | none =>
      { groupedMetrics :=
          mapSet st.groupedMetrics groupKey
            { group with Metrics := mapSet group.Metrics metricName metric },
        metadata := metadata }
  | none =>
    { groupedMetrics :=
        mapSet st.groupedMetrics groupKey
          { Labels := labels, Metrics := [(metricName, metric)], Metadata := metadata },
      metadata := metadata }

/-- One iteration of the loop at lines 51-105, on the element `At(i)` returned. -/
def addToGroupedMetric.step (pmd : Metric) (descriptor : List (String × MetricDescriptor))
    (config : Option Config) (st : LoopState) (point : DataPoint × Bool) :
    LoopState × Outcome :=
  if point.2 = false then (st, .noError)
  else
    match addToGroupedMetric.enrich point.1.Labels config with
    | (labels, .noError) => (addToGroupedMetric.merge pmd descriptor point.1 labels st, .noError)
    | (_, out) => (st, out)

/-- The loop at lines 51-105 over the data points still to visit: the state it ends in, and
how it ends (`noError` when it runs to the end). -/
def addToGroupedMetric.loop (pmd : Metric) (descriptor : List (String × MetricDescriptor))
    (config : Option Config) : List (DataPoint × Bool) → LoopState → LoopState × Outcome
  | [], st => (st, .noError)
  | point :: rest, st =>
    match addToGroupedMetric.step pmd descriptor config st point with
    | (st, .noError) => addToGroupedMetric.loop pmd descriptor config rest st
    | (st, out) => (st, out)

/-- Modelled from the spec: `getDataPoints` is not in the source; the spec has the metric
expose the sequence of its data points, each tagged retained or not. -/
def getDataPoints (pmd : Metric) (_metadata : CWMetricMetadata) :
    Option (List (DataPoint × Bool)) :=
  pmd.DataPoints

/-- The function `addToGroupedMetric` (lines 40-108): the buckets after the call, and how
the call ends. -/
def addToGroupedMetric (pmd : Option Metric) (groupedMetrics : List (Key × GroupedMetric))
    (metadata : CWMetricMetadata) (descriptor : List (String × MetricDescriptor))
    (config : Option Config) : List (Key × GroupedMetric) × Outcome :=
  match pmd with
  | none => (groupedMetrics, .noError)
  | some pmd =>
    match getDataPoints pmd metadata with
    | none => (groupedMetrics, .noError)
    | some dps =>
      if dps.length = 0 then (groupedMetrics, .noError)
      else
        match addToGroupedMetric.loop pmd descriptor config dps
            { groupedMetrics := groupedMetrics, metadata := metadata } with
        | (st, out) => (st.groupedMetrics, out)

/-! ## Properties the theorems are stated with -/

/-- The metric with the data points marked not retained removed from its sequence. -/
def retainedOnly (pmd : Metric) : Metric :=
  { pmd with DataPoints := pmd.DataPoints.map (fun dps => dps.filter (fun point => point.2)) }

/-- The group `g'` keeps what the group `g` holds: the same labels and metadata, and every
metric name of `g` with the same metric record. -/
def GroupKept (g g' : GroupedMetric) : Prop :=
  g'.Labels = g.Labels ∧ g'.Metadata = g.Metadata ∧
    ∀ name info, mapGet g.Metrics name = some info → mapGet g'.Metrics name = some info

/-- The buckets `b'` keep what the buckets `b` hold: every key of `b`, with a group that
keeps the one `b` has there. -/
def BucketsKept (b b' : List (Key × GroupedMetric)) : Prop :=
  ∀ k g, mapGet b k = some g → ∃ g', mapGet b' k = some g' ∧ GroupKept g g'

/-- The member `name` of a JSON object, if the value is an object that has it. -/
def JVal.member : JVal → String → Option JVal
  | .obj kvs, name => mapGet kvs name
  | _, _ => none

/-- The value found in a JSON value by following the member names of `path`. -/
def JVal.memberAt (o : JVal) : List String → Option JVal
  | [] => some o
  | name :: path =>
    match o.member name with
    | some v => v.memberAt path
    | none => none

/-- A field that is present, with the label's value, exactly when the label exists. -/
def fieldOf (name : String) (label : Option String) : List (String × JVal) :=
  match label with
  | some value => [(name, .str value)]
  | none => []

/-- A sub-object that is present exactly when it has a member. -/
def objectOf (name : String) (members : List (String × JVal)) : List (String × JVal) :=
  match members with
  | [] => []
  | _ :: _ => [(name, .obj members)]

/-- The enrichment object as the spec describes it: host, labels (app, pod-template-hash),
namespace name, pod id, pod name, pod owners (kind, name) and service name, each present
only if the flat label it is taken from exists. -/
def kubernetesObject (labels : Labels) : List (String × JVal) :=
  fieldOf "Host" (mapGet labels "host_name") ++
  objectOf "Labels"
    (fieldOf "App" (mapGet labels "app") ++
      fieldOf "Pod-template-hash" (mapGet labels "pod-template-hash")) ++
  fieldOf "Namespace_name" (mapGet labels "namespace_name") ++
  fieldOf "Pod_id" (mapGet labels "pod_id") ++
  fieldOf "Pod_name" (mapGet labels "pod_name") ++
  objectOf "Pod_owners"
    (fieldOf "Owner_kind" (mapGet labels "owner_kind") ++
      fieldOf "Owner_name" (mapGet labels "owner_name")) ++
  fieldOf "Service_name" (mapGet labels "service_name")

/-- What one iteration of the loop of `recursivelyFillInMap` does to the schema at a string
leaf, given the result of the label lookup. -/
def leafUpdate (schema : List (String × JVal)) (k : String) (label : Option String) :
    List (String × JVal) :=
  match label with
  | none => mapDelete schema k
  | some labelVal => mapSet schema k (.str labelVal)

/-- What one iteration of the loop of `recursivelyFillInMap` does to the schema at a nested
map, given the filled nested map. -/
def nestedUpdate (schema : List (String × JVal)) (k : String) (filled : List (String × JVal)) :
    List (String × JVal) :=
  if mapLen filled = 0 then mapDelete (mapSet schema k (.obj filled)) k
  else mapSet schema k (.obj filled)

/-- The metadata with its timestamp set to `t`. -/
def withTimestamp (metadata : CWMetricMetadata) (t : Int) : CWMetricMetadata :=
  { metadata with
    GroupedMetricMetadata := { metadata.GroupedMetricMetadata with TimestampMs := t } }

/-- The timestamp in effect after the data points `earlier` of a call: that of the last
retained point among them whose timestamp is positive, or the caller's if there is none. -/
def timestampInEffect (callTimestampMs : Int) (earlier : List (DataPoint × Bool)) : Int :=
  match (earlier.filter (fun point => point.2 && decide (point.1.TimestampMs > 0))).getLast? with
  | some point => point.1.TimestampMs
  | none => callTimestampMs

/-- The point carries the label `Type` with the value `Pod` or `Container`. -/
def hasObjectType (labels : Labels) : Prop :=
  mapGet labels "Type" = some "Pod" ∨ mapGet labels "Type" = some "Container"

instance (labels : Labels) : Decidable (hasObjectType labels) :=
  inferInstanceAs (Decidable (_ ∨ _))

/-- No entry of the list has the key `k`. -/
def NoKey {κ α : Type} (k : κ) (l : List (κ × α)) : Prop :=
  ∀ p ∈ l, p.1 ≠ k

/-! ## Sample inputs -/

/-- A sample metadata value. -/
def sampleMetadata : CWMetricMetadata :=
  { GroupedMetricMetadata :=
      { Namespace := "ns", TimestampMs := 5, LogGroup := "g", LogStream := "s" },
    InstrumentationLibraryName := "lib" }

/-- A sample group, holding the metric `cpu`. -/
def sampleGroup : GroupedMetric :=
  { Labels := [("host", "a")],
    Metrics := [("cpu", { Value := .intVal 1, Unit := "Seconds" })],
    Metadata := sampleMetadata }

/-- Sample buckets: the sample group under its key. -/
def sampleBuckets : List (Key × GroupedMetric) :=
  [(groupedMetricKey sampleMetadata.GroupedMetricMetadata [("host", "a")], sampleGroup)]

/-- A sample metric `cpu` with one retained point that carries no timestamp and falls into
the sample group. -/
def sampleMetric : Metric :=
  { Name := "cpu", Unit := "s",
    DataPoints := some [({ Labels := [("host", "a")], Value := .intVal 2, TimestampMs := 0 },
      true)] }

/-- A sample data point with its own timestamp, for a group the sample buckets lack. -/
def samplePoint : DataPoint :=
  { Labels := [("host", "b")], Value := .intVal 9, TimestampMs := 7 }

/-- A sample metric `mem` whose only data point is the sample point, retained. -/
def sampleMetricMem : Metric :=
  { Name := "mem", Unit := "By", DataPoints := some [(samplePoint, true)] }

/-- A sample data point without a timestamp. -/
def samplePointUnset : DataPoint :=
  { Labels := [("host", "a")], Value := .intVal 2, TimestampMs := 0 }

/-! ## Identifier resolution, namespace and log destination (`util.go`) -/

/-- Modelled from the spec: the attribute values of the collector's data model are not in
the source; the spec has an attribute present with a value that is null or not, and the
tests insert strings and nulls. -/
inductive AttributeValue where
  | null
  | string (s : String)
  deriving DecidableEq, Repr

/-- The text of an attribute value, empty for a null. -/
def AttributeValue.StringVal : AttributeValue → String
  | .null => ""
  | .string s => s

/-- Modelled from the spec: the attribute source, a key/value view over the attributes of a
resource. -/
abbrev AttributeMap := List (String × AttributeValue)

/-- Modelled from the spec: the table of recognized placeholder names of `util.go` is not in
the source.  The spec maps each name to its candidate attribute keys in priority order, the
canonical dotted key first and the alias equal to the name second; the dotted keys are the
ones `TestGetLogInfo` resolves the five names from. -/
def patternKeyToAttributeMap : List (String × List String) :=
  [("ClusterName", ["aws.ecs.cluster.name", "ClusterName"]),
   ("TaskId", ["aws.ecs.task.id", "TaskId"]),
   ("NodeName", ["k8s.node.name", "NodeName"]),
   ("ContainerInstanceId", ["aws.ecs.container.instance.id", "ContainerInstanceId"]),
   ("TaskDefinitionFamily", ["aws.ecs.task.family", "TaskDefinitionFamily"])]

/-- The value of the first candidate key that is present and not null. -/
def firstNonNull (attrMap : AttributeMap) : List String → Option String
  | [] => none
  | key :: rest =>
    match mapGet attrMap key with
    | some (.string value) => some value
    | _ => firstNonNull attrMap rest

/-- What a recognized token is replaced by: the first candidate value, or `undefined`. -/
def resolvePlaceholder (attrMap : AttributeMap) (candidates : List String) : String :=
  match firstNonNull attrMap candidates with
  | some value => value
  | none => "undefined"

/-- The characters of the token of a placeholder name: the name between braces. -/
def tokenChars (name : String) : List Char :=
  Char.ofNat 123 :: (name.toList ++ [Char.ofNat 125])

/-- The characters `token` are the start of the text. -/
def startsText : List Char → List Char → Bool
  | [], _ => true
  | _ :: _, [] => false
  | p :: ps, c :: cs => decide (p = c) && startsText ps cs

/-- The entry of the table whose token the text starts with, if there is one. -/
def tokenAt (text : List Char) : Option (String × List String) :=
  patternKeyToAttributeMap.find? (fun entry => startsText (tokenChars entry.1) text)

/-- The left-to-right scan of `replacePatterns`: with `skip` characters of a token just
replaced still to pass over, it copies the text and replaces each recognized token. -/
def replacePatterns.scan (attrMap : AttributeMap) : Nat → List Char → List Char
  | _, [] => []
  | skip + 1, _ :: cs => replacePatterns.scan attrMap skip cs
  | 0, c :: cs =>
    match tokenAt (c :: cs) with
    | some entry =>
      (resolvePlaceholder attrMap entry.2).toList ++
        replacePatterns.scan attrMap (entry.1.length + 1) cs
    | none => c :: replacePatterns.scan attrMap 0 cs

/-- Modelled from the spec: `replacePatterns` of `util.go` is not in the source, only its
tests are.  The spec has every token of a recognized name replaced by the first candidate
attribute that is present and not null, or by `undefined`, each token on its own, and all
other text, tokens of unknown names included, left as it is. -/
def replacePatterns (s : String) (attrMap : AttributeMap) : String :=
  String.mk (replacePatterns.scan attrMap 0 s.toList)

/-- Modelled from the spec: `getNamespace` of `util.go` is not in the source, only its test
is.  The configured namespace wins when it is not empty; else the namespace is derived from
the service namespace and service name attributes of the resource. -/
def getNamespace (resourceAttributes : AttributeMap) (configNamespace : String) : String :=
  if configNamespace ≠ "" then configNamespace
  else
    match mapGet resourceAttributes "service.namespace",
        mapGet resourceAttributes "service.name" with
    | some serviceNamespace, some serviceName =>
      serviceNamespace.StringVal ++ "/" ++ serviceName.StringVal
    | some serviceNamespace, none => serviceNamespace.StringVal
    | none, some serviceName => serviceName.StringVal
    | none, none => ""

/-- Modelled from the spec: `getLogInfo` of `util.go` is not in the source, only its test
is.  The log group defaults to `/metrics/` and the namespace, or to nothing without a
namespace; a configured log group or log stream name is resolved against the attributes. -/
def getLogInfo (resourceAttributes : AttributeMap) (cWNamespace : String) (config : Config) :
    String × String :=
  let logGroup :=
    if config.LogGroupName = "" then
      if cWNamespace ≠ "" then "/metrics/" ++ cWNamespace else ""
    else replacePatterns config.LogGroupName resourceAttributes
  let logStream :=
    if config.LogStreamName = "" then ""
    else replacePatterns config.LogStreamName resourceAttributes
  (logGroup, logStream)

/-! ## Properties of schema templates -/

/-- The value is a string or a nested structure, the two kinds a schema template may hold. -/
def JVal.isStringOrMap : JVal → Bool
  | .str _ => true
  | .obj _ => true
  | _ => false

/-- The template contains, at some depth, a value that is neither a string nor a nested
structure. -/
inductive ContainsBadValue : List (String × JVal) → Prop
  | here {schema : List (String × JVal)} (k : String) (v : JVal) :
      (k, v) ∈ schema → v.isStringOrMap = false → ContainsBadValue schema
  | deeper {schema : List (String × JVal)} (k : String) (nested : List (String × JVal)) :
      (k, JVal.obj nested) ∈ schema → ContainsBadValue nested → ContainsBadValue schema

/-- The two templates hold the same entries, up to the order of the entries at every
depth. -/
inductive SameUpToOrder : List (String × JVal) → List (String × JVal) → Prop
  | perm {a b : List (String × JVal)} : a.Perm b → SameUpToOrder a b
  | nested (pre post : List (String × JVal)) (k : String) {n n' : List (String × JVal)} :
      SameUpToOrder n n' →
      SameUpToOrder (pre ++ (k, JVal.obj n) :: post) (pre ++ (k, JVal.obj n') :: post)
  | trans {a b c : List (String × JVal)} :
      SameUpToOrder a b → SameUpToOrder b c → SameUpToOrder a c

mutual
/-- The value is a well-formed `map[string]interface{}` tree: at every depth the keys of a
map are distinct, as the keys of a Go map are. -/
def JVal.keysDistinct : JVal → Bool
  | .obj kvs => decide ((kvs.map Prod.fst).Nodup) && keysDistinctEntries kvs
  | _ => true
/-- Every value of the entries has distinct keys at every depth. -/
def keysDistinctEntries : List (String × JVal) → Bool
  | [] => true
  | (_, v) :: rest => v.keysDistinct && keysDistinctEntries rest
end

/-- The map `out` is what a successful call of `recursivelyFillInMap` on the template
`schema` returns, for some label map. -/
def FilledFrom (schema out : List (String × JVal)) : Prop :=
  ∃ labels labels', recursivelyFillInMap labels schema = (labels', .ok out)

/-- Every entry of `out` comes from the entry of `todo` with its key: a string from a string
leaf, a non-empty filled map from a nested map. -/
def EntryShape (todo out : List (String × JVal)) : Prop :=
  ∀ k v, mapGet out k = some v →
    (∃ s s', mapGet todo k = some (.str s) ∧ v = .str s') ∨
    (∃ n filled, mapGet todo k = some (.obj n) ∧ v = .obj filled ∧ filled ≠ [] ∧
      FilledFrom n filled)

/-! ## Key consistency -/

/-- Every group of the buckets is bound to the key of its own metadata and labels. -/
def KeysConsistent (b : List (Key × GroupedMetric)) : Prop :=
  ∀ k g, mapGet b k = some g →
    k = groupedMetricKey g.Metadata.GroupedMetricMetadata g.Labels

/-! ## Sample inputs of the resolvers and of the schema filler -/

/-- The attributes of `TestReplacePatternValidTaskId`. -/
def sampleAttributes : AttributeMap :=
  [("aws.ecs.cluster.name", .string "test-cluster-name"),
   ("aws.ecs.task.id", .string "test-task-id")]

/-- The resource labels of the first resource of `TestGetLogInfo`. -/
def sampleResourceAttributes : AttributeMap :=
  [("aws.ecs.cluster.name", .string "test-cluster-name"),
   ("aws.ecs.task.id", .string "test-task-id"),
   ("k8s.node.name", .string "ip-192-168-58-245.ec2.internal"),
   ("aws.ecs.container.instance.id", .string "203e0410260d466bab7873bb4f317b4e"),
   ("aws.ecs.task.family", .string "test-task-definition-family")]

/-- A sample template: a nested map with one leaf, and a leaf. -/
def sampleTemplate : List (String × JVal) :=
  [("a", .obj [("b", .str "x")]), ("c", .str "y")]

/-- A sample template with a number beneath a nested map. -/
def sampleBadTemplate : List (String × JVal) :=
  [("a", .obj [("b", .num "1")]), ("c", .str "y")]

/-! ## Properties of the leaves of a filled template -/

/-- The two label maps agree at every key other than `dummy`. -/
def AgreeOffDummy (ℓ₁ ℓ₂ : Labels) : Prop :=
  ∀ x, x ≠ "dummy" → mapGet ℓ₁ x = mapGet ℓ₂ x

/-- Every entry of `todo` leaves in `out` what the label map `ℓ` gives it: a string leaf
that does not look `dummy` up leaves the label's value or nothing, a nested map leaves its
filled form unless that is empty. -/
def LeafShape (ℓ : Labels) (todo out : List (String × JVal)) : Prop :=
  ∀ k,
    (∀ s, mapGet todo k = some (.str s) → s ≠ "dummy" →
      mapGet out k = (mapGet ℓ s).map JVal.str) ∧
    (∀ n, mapGet todo k = some (.obj n) →
      ∃ ℓn ℓn' filled, AgreeOffDummy ℓn ℓ ∧
        recursivelyFillInMap ℓn n = (ℓn', .ok filled) ∧
        mapGet out k = mapGet (objectOf k filled) k)

/-! ## Lemmas on maps -/

theorem mapGet_mapSet_same {κ α : Type} [DecidableEq κ] (m : List (κ × α)) (k : κ) (v : α) :
    mapGet (mapSet m k v) k = some v := by
  induction m with
  | nil => simp [mapSet, mapGet]
  | cons p rest ih =>
    obtain ⟨k', v'⟩ := p
    by_cases h : k' = k
    · simp [mapSet, mapGet, h]
    · simp [mapSet, mapGet, h, ih]

theorem mapGet_mapSet_ne {κ α : Type} [DecidableEq κ] (m : List (κ × α)) (k k' : κ) (v : α)
    (h : k' ≠ k) : mapGet (mapSet m k v) k' = mapGet m k' := by
  induction m with
  | nil => simp [mapSet, mapGet, Ne.symm h]
  | cons p rest ih =>
    obtain ⟨k₁, v₁⟩ := p
    by_cases h₁ : k₁ = k
    · subst h₁
      simp [mapSet, mapGet, Ne.symm h]
    · by_cases h₂ : k₁ = k'
      · subst h₂
        simp [mapSet, mapGet, h₁]
      · simp [mapSet, mapGet, h₁, h₂, ih]

theorem mapSet_mapSet_same {κ α : Type} [DecidableEq κ] (m : List (κ × α)) (k : κ) (v w : α) :
    mapSet (mapSet m k v) k w = mapSet m k w := by
  induction m with
  | nil => simp [mapSet]
  | cons p rest ih =>
    obtain ⟨k', v'⟩ := p
    by_cases h : k' = k
    · simp [mapSet, h]
    · simp [mapSet, h, ih]

theorem mapSet_of_mapGet_none {κ α : Type} [DecidableEq κ] (m : List (κ × α)) (k : κ) (v : α)
    (h : mapGet m k = none) : mapSet m k v = m ++ [(k, v)] := by
  induction m with
  | nil => simp [mapSet]
  | cons p rest ih =>
    obtain ⟨k', v'⟩ := p
    by_cases h' : k' = k
    · simp [mapGet, h'] at h
    · simp only [mapGet, h', if_false] at h
      simp [mapSet, h', ih h]

/-! ## translateUnit -/

/-- C3: when the descriptor table has an entry for the metric's name and the raw unit is
empty or the entry's overwrite flag is set, `translateUnit` returns the entry's unit. -/
theorem translateUnit_descriptor (metric : Metric) (descriptor : List (String × MetricDescriptor))
    (d : MetricDescriptor) (hd : mapGet descriptor metric.Name = some d)
    (hu : metric.Unit = "" ∨ d.overwrite = true) :
    translateUnit metric descriptor = d.unit := by
  simp [translateUnit, hd, hu]

/-- Witness of C3: an overwriting descriptor wins over the raw unit `ms`. -/
theorem translateUnit_descriptor_witness :
    translateUnit { Name := "latency", Unit := "ms", DataPoints := none }
      [("latency", { unit := "Count", overwrite := true })] = "Count" :=
  translateUnit_descriptor { Name := "latency", Unit := "ms", DataPoints := none }
    [("latency", { unit := "Count", overwrite := true })] { unit := "Count", overwrite := true }
    (by decide) (Or.inr rfl)

/-- C4: when the table has no entry for the metric's name, or its entry does not overwrite
and the raw unit is not empty, `translateUnit` maps `ms`, `s`, `us`, `By`, `Bi` to their
canonical names and returns every other unit unchanged. -/
theorem translateUnit_mapping (metric : Metric) (descriptor : List (String × MetricDescriptor))
    (h : mapGet descriptor metric.Name = none ∨
      ∃ d, mapGet descriptor metric.Name = some d ∧ d.overwrite = false ∧ metric.Unit ≠ "") :
    (metric.Unit = "ms" → translateUnit metric descriptor = "Milliseconds") ∧
    (metric.Unit = "s" → translateUnit metric descriptor = "Seconds") ∧
    (metric.Unit = "us" → translateUnit metric descriptor = "Microseconds") ∧
    (metric.Unit = "By" → translateUnit metric descriptor = "Bytes") ∧
    (metric.Unit = "Bi" → translateUnit metric descriptor = "Bits") ∧
    (metric.Unit ≠ "ms" → metric.Unit ≠ "s" → metric.Unit ≠ "us" → metric.Unit ≠ "By" →
      metric.Unit ≠ "Bi" → translateUnit metric descriptor = metric.Unit) := by
  have key : translateUnit metric descriptor =
      if metric.Unit = "ms" then "Milliseconds"
      else if metric.Unit = "s" then "Seconds"
      else if metric.Unit = "us" then "Microseconds"
      else if metric.Unit = "By" then "Bytes"
      else if metric.Unit = "Bi" then "Bits"
      else metric.Unit := by
    rcases h with h | ⟨d, hd, ho, hu⟩
    · simp [translateUnit, h]
    · simp [translateUnit, hd, ho, hu]
  rw [key]
  refine ⟨?_, ?_, ?_, ?_, ?_, ?_⟩
  · intro h; simp [h]
  · intro h; simp [h]
  · intro h; simp [h]
  · intro h; simp [h]
  · intro h; simp [h]
  · intro h1 h2 h3 h4 h5; simp [h1, h2, h3, h4, h5]

/-- Witness of C4: the metric `any` with unit `ms` and an empty table gives `Milliseconds`. -/
theorem translateUnit_mapping_witness :
    translateUnit { Name := "any", Unit := "ms", DataPoints := none } [] = "Milliseconds" :=
  (translateUnit_mapping { Name := "any", Unit := "ms", DataPoints := none } []
    (Or.inl rfl)).1 rfl

/-! ## The loop of addToGroupedMetric -/

theorem step_not_retained (pmd : Metric) (descriptor : List (String × MetricDescriptor))
    (config : Option Config) (st : LoopState) (dp : DataPoint) :
    addToGroupedMetric.step pmd descriptor config st (dp, false) = (st, .noError) := by
  simp [addToGroupedMetric.step]

theorem step_retained (pmd : Metric) (descriptor : List (String × MetricDescriptor))
    (config : Option Config) (st : LoopState) (dp : DataPoint) :
    addToGroupedMetric.step pmd descriptor config st (dp, true) =
      if (addToGroupedMetric.enrich dp.Labels config).2 = .noError then
        (addToGroupedMetric.merge pmd descriptor dp
          (addToGroupedMetric.enrich dp.Labels config).1 st, .noError)
      else (st, (addToGroupedMetric.enrich dp.Labels config).2) := by
  simp only [addToGroupedMetric.step]
  rcases addToGroupedMetric.enrich dp.Labels config with ⟨labels, out⟩
  cases out <;> simp

theorem step_cases (pmd : Metric) (descriptor : List (String × MetricDescriptor))
    (config : Option Config) (st : LoopState) (point : DataPoint × Bool) :
    (addToGroupedMetric.step pmd descriptor config st point).1 = st ∨
      ∃ labels, addToGroupedMetric.step pmd descriptor config st point =
        (addToGroupedMetric.merge pmd descriptor point.1 labels st, .noError) := by
  obtain ⟨dp, retained⟩ := point
  cases retained
  · left; rw [step_not_retained]
  · rw [step_retained]
    by_cases h : (addToGroupedMetric.enrich dp.Labels config).2 = .noError
    · right; exact ⟨(addToGroupedMetric.enrich dp.Labels config).1, by simp [h]⟩
    · left; simp [h]

theorem loop_cons (pmd : Metric) (descriptor : List (String × MetricDescriptor))
    (config : Option Config) (point : DataPoint × Bool) (rest : List (DataPoint × Bool))
    (st : LoopState) :
    addToGroupedMetric.loop pmd descriptor config (point :: rest) st =
      if (addToGroupedMetric.step pmd descriptor config st point).2 = .noError then
        addToGroupedMetric.loop pmd descriptor config rest
          (addToGroupedMetric.step pmd descriptor config st point).1
      else addToGroupedMetric.step pmd descriptor config st point := by
  simp only [addToGroupedMetric.loop]
  rcases addToGroupedMetric.step pmd descriptor config st point with ⟨st', out⟩
  cases out <;> simp

theorem loop_append (pmd : Metric) (descriptor : List (String × MetricDescriptor))
    (config : Option Config) (pre post : List (DataPoint × Bool)) (st : LoopState) :
    addToGroupedMetric.loop pmd descriptor config (pre ++ post) st =
      if (addToGroupedMetric.loop pmd descriptor config pre st).2 = .noError then
        addToGroupedMetric.loop pmd descriptor config post
          (addToGroupedMetric.loop pmd descriptor config pre st).1
      else addToGroupedMetric.loop pmd descriptor config pre st := by
  induction pre generalizing st with
  | nil => simp [addToGroupedMetric.loop]
  | cons point rest ih =>
    rw [List.cons_append, loop_cons, loop_cons]
    by_cases h : (addToGroupedMetric.step pmd descriptor config st point).2 = .noError
    · simp only [h, if_true]
      exact ih _
    · simp [h]

theorem loop_filter_retained (pmd : Metric) (descriptor : List (String × MetricDescriptor))
    (config : Option Config) (dps : List (DataPoint × Bool)) (st : LoopState) :
    addToGroupedMetric.loop pmd descriptor config (dps.filter (fun point => point.2)) st =
      addToGroupedMetric.loop pmd descriptor config dps st := by
  induction dps generalizing st with
  | nil => rfl
  | cons point rest ih =>
    obtain ⟨dp, retained⟩ := point
    cases retained
    · rw [loop_cons, step_not_retained]
      simpa using ih st
    · simp only [List.filter_cons_of_pos]
      rw [loop_cons, loop_cons]
      by_cases h : (addToGroupedMetric.step pmd descriptor config st (dp, true)).2 = .noError
      · simp only [h, if_true]
        exact ih _
      · simp [h]

/-! ## C5, C6 -/

/-- C5: for a nil metric, or one whose data points are nil or of length zero,
`addToGroupedMetric` returns no error and the buckets are exactly as they were. -/
theorem addToGroupedMetric_no_points (pmd : Option Metric)
    (groupedMetrics : List (Key × GroupedMetric)) (metadata : CWMetricMetadata)
    (descriptor : List (String × MetricDescriptor)) (config : Option Config)
    (h : pmd = none ∨ ∃ m, pmd = some m ∧
      (getDataPoints m metadata = none ∨ getDataPoints m metadata = some [])) :
    addToGroupedMetric pmd groupedMetrics metadata descriptor config =
      (groupedMetrics, .noError) := by
  rcases h with h | ⟨m, h, hd | hd⟩
  · subst h; rfl
  · subst h; simp [addToGroupedMetric, hd]
  · subst h; simp [addToGroupedMetric, hd]

/-- Witness of C5: a metric with no data points, on buckets holding one group. -/
theorem addToGroupedMetric_no_points_witness :
    addToGroupedMetric (some { Name := "m", Unit := "s", DataPoints := some [] })
      [(groupedMetricKey ⟨"ns", 1, "", ""⟩ [],
        { Labels := [], Metrics := [], Metadata := ⟨⟨"ns", 1, "", ""⟩, "lib"⟩ })]
      ⟨⟨"ns", 2, "", ""⟩, "lib"⟩ [] none =
      ([(groupedMetricKey ⟨"ns", 1, "", ""⟩ [],
        { Labels := [], Metrics := [], Metadata := ⟨⟨"ns", 1, "", ""⟩, "lib"⟩ })], .noError) :=
  addToGroupedMetric_no_points _ _ _ _ _ (Or.inr ⟨_, rfl, Or.inr rfl⟩)

/-- C6: `addToGroupedMetric` gives the same buckets and the same outcome on a metric and on
that metric with its not-retained data points removed, and the iteration on a not-retained
point leaves the buckets and the carried metadata as they are. -/
theorem addToGroupedMetric_skips_not_retained (pmd : Option Metric)
    (groupedMetrics : List (Key × GroupedMetric)) (metadata : CWMetricMetadata)
    (descriptor : List (String × MetricDescriptor)) (config : Option Config) :
    addToGroupedMetric pmd groupedMetrics metadata descriptor config =
        addToGroupedMetric (pmd.map retainedOnly) groupedMetrics metadata descriptor config ∧
      ∀ (m : Metric) (st : LoopState) (dp : DataPoint),
        addToGroupedMetric.step m descriptor config st (dp, false) = (st, .noError) := by
  refine ⟨?_, fun m st dp => step_not_retained m descriptor config st dp⟩
  cases pmd with
  | none => rfl
  | some m =>
    obtain ⟨name, unit, dps⟩ := m
    cases dps with
    | none => rfl
    | some dps =>
      have hloop := loop_filter_retained ⟨name, unit, some dps⟩ descriptor config dps
        { groupedMetrics := groupedMetrics, metadata := metadata }
      have hpmd : ∀ (a b : Option (List (DataPoint × Bool))) (l : List (DataPoint × Bool))
          (s : LoopState),
          addToGroupedMetric.loop ⟨name, unit, a⟩ descriptor config l s =
            addToGroupedMetric.loop ⟨name, unit, b⟩ descriptor config l s := by
        intro a b l
        induction l with
        | nil => intro s; rfl
        | cons point rest ih =>
          intro s
          have hs : addToGroupedMetric.step ⟨name, unit, a⟩ descriptor config s point =
              addToGroupedMetric.step ⟨name, unit, b⟩ descriptor config s point := rfl
          rw [loop_cons, loop_cons, hs, ih]
      simp only [Option.map, retainedOnly, addToGroupedMetric, getDataPoints]
      by_cases h0 : dps.length = 0
      · have : dps = [] := List.length_eq_zero.mp h0
        subst this
        simp
      · simp only [h0, if_false]
        by_cases h1 : (dps.filter (fun point => point.2)).length = 0
        · have h2 : dps.filter (fun point => point.2) = [] := List.length_eq_zero.mp h1
          rw [h2] at hloop
          simp only [h1, if_true]
          rw [← hloop]
          rfl
        · simp only [h1, if_false]
          rw [hpmd (some (dps.filter (fun point => point.2))) (some dps), hloop]

/-! ## C1: what the buckets hold is kept -/

theorem groupKept_refl (g : GroupedMetric) : GroupKept g g :=
  ⟨rfl, rfl, fun _ _ h => h⟩

theorem bucketsKept_refl (b : List (Key × GroupedMetric)) : BucketsKept b b :=
  fun _ g h => ⟨g, h, groupKept_refl g⟩

theorem bucketsKept_trans {a b c : List (Key × GroupedMetric)} (hab : BucketsKept a b)
    (hbc : BucketsKept b c) : BucketsKept a c := by
  intro k g hg
  obtain ⟨g', hg', hl, hm, hk⟩ := hab k g hg
  obtain ⟨g₂, hg₂, hl₂, hm₂, hk₂⟩ := hbc k g' hg'
  exact ⟨g₂, hg₂, hl₂.trans hl, hm₂.trans hm, fun n i h => hk₂ n i (hk n i h)⟩

theorem merge_kept (pmd : Metric) (descriptor : List (String × MetricDescriptor))
    (dp : DataPoint) (labels : Labels) (st : LoopState) :
    BucketsKept st.groupedMetrics
      (addToGroupedMetric.merge pmd descriptor dp labels st).groupedMetrics := by
  intro k g hg
  simp only [addToGroupedMetric.merge]
  split
  · rename_i group hgroup
    split
    · exact ⟨g, hg, groupKept_refl g⟩
    · rename_i hname
      by_cases hk : k = groupedMetricKey
          (if dp.TimestampMs > 0 then
            { st.metadata with
              GroupedMetricMetadata :=
                { st.metadata.GroupedMetricMetadata with TimestampMs := dp.TimestampMs } }
          else st.metadata).GroupedMetricMetadata labels
      · subst hk
        rw [hg] at hgroup
        cases hgroup
        refine ⟨_, mapGet_mapSet_same _ _ _, rfl, rfl, ?_⟩
        intro name info hinfo
        have hne : name ≠ pmd.Name := by
          intro h
          rw [h, hname] at hinfo
          cases hinfo
        simpa [mapGet_mapSet_ne _ _ _ _ hne] using hinfo
      · exact ⟨g, by rw [mapGet_mapSet_ne _ _ _ _ hk]; exact hg, groupKept_refl g⟩
  · rename_i hnone
    have hk : k ≠ groupedMetricKey
          (if dp.TimestampMs > 0 then
            { st.metadata with
              GroupedMetricMetadata :=
                { st.metadata.GroupedMetricMetadata with TimestampMs := dp.TimestampMs } }
          else st.metadata).GroupedMetricMetadata labels := by
      intro h
      rw [h, hnone] at hg
      cases hg
    exact ⟨g, by rw [mapGet_mapSet_ne _ _ _ _ hk]; exact hg, groupKept_refl g⟩

theorem step_kept (pmd : Metric) (descriptor : List (String × MetricDescriptor))
    (config : Option Config) (st : LoopState) (point : DataPoint × Bool) :
    BucketsKept st.groupedMetrics
      (addToGroupedMetric.step pmd descriptor config st point).1.groupedMetrics := by
  rcases step_cases pmd descriptor config st point with h | ⟨labels, h⟩
  · rw [h]; exact bucketsKept_refl _
  · rw [h]; exact merge_kept pmd descriptor point.1 labels st

theorem loop_kept (pmd : Metric) (descriptor : List (String × MetricDescriptor))
    (config : Option Config) (dps : List (DataPoint × Bool)) (st : LoopState) :
    BucketsKept st.groupedMetrics
      (addToGroupedMetric.loop pmd descriptor config dps st).1.groupedMetrics := by
  induction dps generalizing st with
  | nil => exact bucketsKept_refl _
  | cons point rest ih =>
    rw [loop_cons]
    split
    · exact bucketsKept_trans (step_kept pmd descriptor config st point) (ih _)
    · exact step_kept pmd descriptor config st point

theorem addToGroupedMetric_kept (pmd : Option Metric)
    (groupedMetrics : List (Key × GroupedMetric)) (metadata : CWMetricMetadata)
    (descriptor : List (String × MetricDescriptor)) (config : Option Config) :
    BucketsKept groupedMetrics
      (addToGroupedMetric pmd groupedMetrics metadata descriptor config).1 := by
  cases pmd with
  | none => exact bucketsKept_refl _
  | some m =>
    simp only [addToGroupedMetric]
    split
    · exact bucketsKept_refl _
    · split
      · exact bucketsKept_refl _
      · exact loop_kept m descriptor config _
          { groupedMetrics := groupedMetrics, metadata := metadata }

theorem merge_duplicate (pmd : Metric) (descriptor : List (String × MetricDescriptor))
    (dp : DataPoint) (labels : Labels) (st : LoopState) (group : GroupedMetric)
    (info : MetricInfo)
    (hkey : mapGet st.groupedMetrics
      (groupedMetricKey
        { st.metadata.GroupedMetricMetadata with
          TimestampMs := if dp.TimestampMs > 0 then dp.TimestampMs
            else st.metadata.GroupedMetricMetadata.TimestampMs } labels) = some group)
    (hname : mapGet group.Metrics pmd.Name = some info) :
    (addToGroupedMetric.merge pmd descriptor dp labels st).groupedMetrics =
      st.groupedMetrics := by
  simp only [addToGroupedMetric.merge]
  by_cases hts : dp.TimestampMs > 0
  · simp only [hts, if_true] at hkey ⊢
    simp [hkey, hname]
  · simp only [hts, if_false] at hkey ⊢
    simp [hkey, hname]

/-- C1: `addToGroupedMetric` keeps what the buckets hold.  Every key bound before the call
is bound after it, to a group with the same labels and metadata in which every metric name
of the group keeps its metric record, whatever the outcome of the call; and the merge of a
retained data point whose group key and metric name are both present leaves the buckets,
and so that group's metrics, exactly as they were. -/
theorem addToGroupedMetric_keeps_buckets (pmd : Option Metric)
    (groupedMetrics : List (Key × GroupedMetric)) (metadata : CWMetricMetadata)
    (descriptor : List (String × MetricDescriptor)) (config : Option Config) :
    (∀ k g, mapGet groupedMetrics k = some g →
      ∃ g', mapGet (addToGroupedMetric pmd groupedMetrics metadata descriptor config).1 k
          = some g' ∧
        g'.Labels = g.Labels ∧ g'.Metadata = g.Metadata ∧
        ∀ name info, mapGet g.Metrics name = some info →
          mapGet g'.Metrics name = some info) ∧
    (∀ (m : Metric) (dp : DataPoint) (labels : Labels) (st : LoopState)
      (group : GroupedMetric) (info : MetricInfo),
      mapGet st.groupedMetrics
        (groupedMetricKey
          { st.metadata.GroupedMetricMetadata with
            TimestampMs := if dp.TimestampMs > 0 then dp.TimestampMs
              else st.metadata.GroupedMetricMetadata.TimestampMs } labels) = some group →
      mapGet group.Metrics m.Name = some info →
      (addToGroupedMetric.merge m descriptor dp labels st).groupedMetrics =
        st.groupedMetrics) :=
  ⟨addToGroupedMetric_kept pmd groupedMetrics metadata descriptor config,
    fun m dp labels st group info hkey hname =>
      merge_duplicate m descriptor dp labels st group info hkey hname⟩

/-- Witness of C1: the sample group survives a call that brings a second point for the
metric `cpu` it already holds, and the merge of that point changes nothing. -/
theorem addToGroupedMetric_keeps_buckets_witness :
    (∃ g', mapGet (addToGroupedMetric (some sampleMetric) sampleBuckets sampleMetadata []
          none).1 (groupedMetricKey sampleMetadata.GroupedMetricMetadata [("host", "a")])
          = some g' ∧
        g'.Labels = sampleGroup.Labels ∧ g'.Metadata = sampleGroup.Metadata ∧
        ∀ name info, mapGet sampleGroup.Metrics name = some info →
          mapGet g'.Metrics name = some info) ∧
    (addToGroupedMetric.merge sampleMetric []
        { Labels := [("host", "a")], Value := .intVal 2, TimestampMs := 0 } [("host", "a")]
        { groupedMetrics := sampleBuckets, metadata := sampleMetadata }).groupedMetrics =
      sampleBuckets :=
  ⟨(addToGroupedMetric_keeps_buckets (some sampleMetric) sampleBuckets sampleMetadata []
      none).1 _ sampleGroup (by decide),
   (addToGroupedMetric_keeps_buckets (some sampleMetric) sampleBuckets sampleMetadata []
      none).2 sampleMetric { Labels := [("host", "a")], Value := .intVal 2, TimestampMs := 0 }
      [("host", "a")] { groupedMetrics := sampleBuckets, metadata := sampleMetadata }
      sampleGroup { Value := .intVal 1, Unit := "Seconds" } (by decide) (by decide)⟩

/-! ## C2: group keys -/

theorem mem_mapEntries_go {κ α : Type} [DecidableEq κ] (l : List (κ × α)) (seen : List κ)
    (k : κ) (v : α) :
    (k, v) ∈ mapEntries.go seen l ↔ k ∉ seen ∧ mapGet l k = some v := by
  induction l generalizing seen with
  | nil => simp [mapEntries.go, mapGet]
  | cons p rest ih =>
    obtain ⟨k', v'⟩ := p
    by_cases hs : k' ∈ seen
    · simp only [mapEntries.go, hs, if_true, ih, mapGet]
      by_cases hk : k' = k
      · subst hk; simp [hs]
      · simp [hk]
    · simp only [mapEntries.go, hs, if_false, List.mem_cons, ih, mapGet, Prod.mk.injEq]
      by_cases hk : k' = k
      · subst hk
        simp only [if_true, Option.some.injEq, true_and, not_true_eq_false, false_or, not_false_eq_true,
          hs]
        simp [eq_comm]
      · have hk₂ : ¬ k = k' := fun h => hk h.symm
        simp [hk, hk₂]

theorem mem_mapEntries {κ α : Type} [DecidableEq κ] (l : List (κ × α)) (k : κ) (v : α) :
    (k, v) ∈ mapEntries l ↔ mapGet l k = some v := by
  simp [mapEntries, mem_mapEntries_go]

theorem nodup_keys_mapEntries_go {κ α : Type} [DecidableEq κ] (l : List (κ × α))
    (seen : List κ) : ((mapEntries.go seen l).map Prod.fst).Nodup := by
  induction l generalizing seen with
  | nil => simp [mapEntries.go]
  | cons p rest ih =>
    obtain ⟨k', v'⟩ := p
    by_cases hs : k' ∈ seen
    · simp only [mapEntries.go, hs, if_true]
      exact ih seen
    · simp only [mapEntries.go, hs, if_false, List.map_cons, List.nodup_cons]
      refine ⟨?_, ih _⟩
      intro hmem
      obtain ⟨⟨k, v⟩, hkv, hk⟩ := List.mem_map.mp hmem
      simp only at hk
      subst hk
      have := (mem_mapEntries_go rest (k :: seen) k v).mp hkv
      simp at this

theorem nodup_keys_mapEntries {κ α : Type} [DecidableEq κ] (l : List (κ × α)) :
    ((mapEntries l).map Prod.fst).Nodup :=
  nodup_keys_mapEntries_go l []

theorem sortByKey_perm {α : Type} (l : List (String × α)) : (sortByKey l).Perm l :=
  List.perm_insertionSort _ l

theorem sortByKey_strict {α : Type} (l : List (String × α))
    (hl : (l.map Prod.fst).Nodup) :
    (sortByKey l).Sorted (fun a b => a.1.toList < b.1.toList) := by
  have hsorted : (sortByKey l).Pairwise (fun a b => keyLe a.1 b.1) :=
    List.sorted_insertionSort _ l
  have hnodup : ((sortByKey l).map Prod.fst).Nodup :=
    (((sortByKey_perm l).map Prod.fst).nodup_iff).mpr hl
  have hne : (sortByKey l).Pairwise (fun a b => a.1 ≠ b.1) := List.pairwise_map.mp hnodup
  refine (hsorted.and hne).imp ?_
  rintro a b ⟨hle, hab⟩
  exact lt_of_le_of_ne hle (fun h => hab (String.toList_inj.mp h))

theorem sortByKey_eq_iff {α : Type} (l₁ l₂ : List (String × α))
    (h₁ : (l₁.map Prod.fst).Nodup) (h₂ : (l₂.map Prod.fst).Nodup) :
    sortByKey l₁ = sortByKey l₂ ↔ ∀ a, a ∈ l₁ ↔ a ∈ l₂ := by
  constructor
  · intro h a
    rw [← (sortByKey_perm l₁).mem_iff, ← (sortByKey_perm l₂).mem_iff, h]
  · intro h
    have hperm : l₁.Perm l₂ :=
      (List.perm_ext_iff_of_nodup (List.Nodup.of_map _ h₁) (List.Nodup.of_map _ h₂)).mpr h
    exact List.eq_of_perm_of_sorted
      (((sortByKey_perm l₁).trans hperm).trans (sortByKey_perm l₂).symm)
      (sortByKey_strict l₁ h₁) (sortByKey_strict l₂ h₂)

/-- C2: for one metadata value, two label maps get the same group key exactly when they
bind the same label names to the same values, whatever the order of their entries; so maps
equal as sets of pairs share their key, and maps that differ at some label get different
keys. -/
theorem groupedMetricKey_eq_iff (metadata : GroupedMetricMetadata) (labels₁ labels₂ : Labels) :
    groupedMetricKey metadata labels₁ = groupedMetricKey metadata labels₂ ↔
      ∀ k, mapGet labels₁ k = mapGet labels₂ k := by
  simp only [groupedMetricKey, NewKey, Key.mk.injEq, true_and]
  rw [sortByKey_eq_iff _ _ (nodup_keys_mapEntries labels₁) (nodup_keys_mapEntries labels₂)]
  constructor
  · intro h k
    apply Option.ext
    intro v
    have := h (k, v)
    simpa [mem_mapEntries] using this
  · rintro h ⟨k, v⟩
    simp [mem_mapEntries, h k]

/-! ## The schema filler on the kubernetes schema -/

theorem loop_nil (labels : Labels) (schema : List (String × JVal)) :
    recursivelyFillInMap.loop [] labels schema = (labels, .ok schema) := by
  simp only [recursivelyFillInMap.loop]

theorem loop_str (k stringVal : String) (rest : List (String × JVal)) (labels : Labels)
    (schema : List (String × JVal)) :
    recursivelyFillInMap.loop ((k, .str stringVal) :: rest) labels schema =
      recursivelyFillInMap.loop rest labels (leafUpdate schema k (mapGet labels stringVal)) := by
  simp only [recursivelyFillInMap.loop, leafUpdate]
  cases mapGet labels stringVal <;> rfl

theorem loop_obj (k : String) (nestedObj rest : List (String × JVal)) (labels : Labels)
    (schema : List (String × JVal)) :
    recursivelyFillInMap.loop ((k, .obj nestedObj) :: rest) labels schema =
      match recursivelyFillInMap labels nestedObj with
      | (labels, .error err) => (labels, .error err)
      | (labels, .ok filled) =>
        recursivelyFillInMap.loop rest labels (nestedUpdate schema k filled) := by
  simp only [recursivelyFillInMap.loop, recursivelyFillInMap, nestedUpdate]

theorem recursivelyFillInMap_eq (labels : Labels) (schema : List (String × JVal)) :
    recursivelyFillInMap labels schema =
      match recursivelyFillInMap.loop schema (mapSet labels "dummy" "got to the start")
          schema with
      | (labels, .error err) => (labels, .error err)
      | (labels, .ok schema) => (mapSet labels "dummy" "got to the end", .ok schema) := by
  simp only [recursivelyFillInMap, recursivelyFillInMap.onValue]

theorem recursivelyFillInMap_two_leaves (labels : Labels) (a x b y : String)
    (hx : x ≠ "dummy") (hy : y ≠ "dummy") :
    recursivelyFillInMap labels [(a, .str x), (b, .str y)] =
      (mapSet labels "dummy" "got to the end",
        .ok (leafUpdate (leafUpdate [(a, .str x), (b, .str y)] a (mapGet labels x)) b
          (mapGet labels y))) := by
  rw [recursivelyFillInMap_eq, loop_str, loop_str, loop_nil]
  simp only [mapGet_mapSet_ne _ _ _ _ hx, mapGet_mapSet_ne _ _ _ _ hy, mapSet_mapSet_same]

theorem noKey_nil {κ α : Type} (k : κ) : NoKey k ([] : List (κ × α)) := by
  intro p hp
  cases hp

theorem noKey_cons {κ α : Type} {k k' : κ} {v : α} {l : List (κ × α)} (h : k' ≠ k)
    (hl : NoKey k l) : NoKey k ((k', v) :: l) := by
  intro p hp
  rcases List.mem_cons.mp hp with rfl | hp
  · exact h
  · exact hl p hp

theorem noKey_append {κ α : Type} {k : κ} {a b : List (κ × α)} (ha : NoKey k a)
    (hb : NoKey k b) : NoKey k (a ++ b) := by
  intro p hp
  rcases List.mem_append.mp hp with hp | hp
  · exact ha p hp
  · exact hb p hp

theorem noKey_fieldOf {k name : String} (label : Option String) (h : name ≠ k) :
    NoKey k (fieldOf name label) := by
  cases label with
  | none => exact noKey_nil k
  | some v => exact noKey_cons h (noKey_nil k)

theorem noKey_objectOf {k name : String} (members : List (String × JVal)) (h : name ≠ k) :
    NoKey k (objectOf name members) := by
  cases members with
  | nil => exact noKey_nil k
  | cons a t => exact noKey_cons h (noKey_nil k)

theorem mapSet_append_skip {κ α : Type} [DecidableEq κ] (done l : List (κ × α)) (k : κ)
    (v : α) (h : NoKey k done) : mapSet (done ++ l) k v = done ++ mapSet l k v := by
  induction done with
  | nil => rfl
  | cons p rest ih =>
    obtain ⟨k', v'⟩ := p
    have hne : ¬ k' = k := h (k', v') (List.mem_cons_self _ _)
    have hrest : NoKey k rest := fun q hq => h q (List.mem_cons_of_mem _ hq)
    simp [mapSet, hne, ih hrest]

theorem mapDelete_append_skip {κ α : Type} [DecidableEq κ] (done l : List (κ × α)) (k : κ)
    (h : NoKey k done) : mapDelete (done ++ l) k = done ++ mapDelete l k := by
  induction done with
  | nil => rfl
  | cons p rest ih =>
    obtain ⟨k', v'⟩ := p
    have hne : ¬ k' = k := h (k', v') (List.mem_cons_self _ _)
    have hrest : NoKey k rest := fun q hq => h q (List.mem_cons_of_mem _ hq)
    simp [mapDelete, hne, ih hrest]

theorem mapDelete_of_noKey {κ α : Type} [DecidableEq κ] (l : List (κ × α)) (k : κ)
    (h : NoKey k l) : mapDelete l k = l := by
  simpa [mapDelete] using mapDelete_append_skip l [] k h

theorem mapLen_eq_zero {κ α : Type} [DecidableEq κ] (m : List (κ × α)) :
    mapLen m = 0 ↔ m = [] := by
  cases m with
  | nil => simp [mapLen]
  | cons p rest =>
    simp only [mapLen, List.length_eq_zero, reduceCtorEq, iff_false]
    intro h
    have : p.1 ∈ (List.map Prod.fst (p :: rest)).dedup := List.mem_dedup.mpr (by simp)
    rw [h] at this
    simp at this

theorem leafUpdate_at (done rest : List (String × JVal)) (k : String) (x : JVal)
    (label : Option String) (hd : NoKey k done) (hr : NoKey k rest) :
    leafUpdate (done ++ (k, x) :: rest) k label = (done ++ fieldOf k label) ++ rest := by
  cases label with
  | none =>
    simp [leafUpdate, fieldOf, mapDelete_append_skip _ _ _ hd, mapDelete,
      mapDelete_of_noKey _ _ hr]
  | some v => simp [leafUpdate, fieldOf, mapSet_append_skip _ _ _ _ hd, mapSet]

theorem nestedUpdate_at (done rest : List (String × JVal)) (k : String) (x : JVal)
    (filled : List (String × JVal)) (hd : NoKey k done) (hr : NoKey k rest) :
    nestedUpdate (done ++ (k, x) :: rest) k filled = (done ++ objectOf k filled) ++ rest := by
  cases filled with
  | nil =>
    simp [nestedUpdate, objectOf, mapLen_eq_zero, mapSet_append_skip _ _ _ _ hd, mapSet,
      mapDelete_append_skip _ _ _ hd, mapDelete, mapDelete_of_noKey _ _ hr]
  | cons a t =>
    simp [nestedUpdate, objectOf, mapLen_eq_zero, mapSet_append_skip _ _ _ _ hd, mapSet]

theorem two_leaves_updates (a b : String) (x y : JVal) (o₁ o₂ : Option String) (h : a ≠ b) :
    leafUpdate (leafUpdate [(a, x), (b, y)] a o₁) b o₂ = fieldOf a o₁ ++ fieldOf b o₂ := by
  have h₁ := leafUpdate_at [] [(b, y)] a x o₁ (noKey_nil a)
    (noKey_cons (Ne.symm h) (noKey_nil a))
  have h₂ := leafUpdate_at ([] ++ fieldOf a o₁) [] b y o₂
    (noKey_append (noKey_nil b) (noKey_fieldOf o₁ h)) (noKey_nil b)
  simp only [List.nil_append] at h₁ h₂
  rw [h₁, h₂, List.append_nil]

theorem kubernetes_updates (o₁ o₂ o₃ o₄ o₅ o₆ o₇ o₈ o₉ : Option String) :
    leafUpdate
      (nestedUpdate
        (leafUpdate
          (leafUpdate
            (leafUpdate
              (nestedUpdate (leafUpdate kubernetesSchema "Host" o₁) "Labels"
                (fieldOf "App" o₂ ++ fieldOf "Pod-template-hash" o₃))
              "Namespace_name" o₄)
            "Pod_id" o₅)
          "Pod_name" o₆)
        "Pod_owners" (fieldOf "Owner_kind" o₇ ++ fieldOf "Owner_name" o₈))
      "Service_name" o₉ =
    fieldOf "Host" o₁ ++ objectOf "Labels" (fieldOf "App" o₂ ++ fieldOf "Pod-template-hash" o₃) ++
      fieldOf "Namespace_name" o₄ ++ fieldOf "Pod_id" o₅ ++ fieldOf "Pod_name" o₆ ++
      objectOf "Pod_owners" (fieldOf "Owner_kind" o₇ ++ fieldOf "Owner_name" o₈) ++
      fieldOf "Service_name" o₉ := by
  have e1 := leafUpdate_at ([]) (kubernetesSchema.drop 1) "Host"
    (JVal.str "host_name") o₁
    (by repeat (first | apply noKey_append | apply noKey_fieldOf | apply noKey_objectOf |
      apply noKey_cons | apply noKey_nil | decide))
    (by repeat (first | apply noKey_cons | apply noKey_nil | decide))
  rw [show ("Host", JVal.str "host_name") :: kubernetesSchema.drop 1 = kubernetesSchema.drop 0
    from rfl] at e1
  have e2 := nestedUpdate_at ([] ++ fieldOf "Host" o₁) (kubernetesSchema.drop 2) "Labels"
    (JVal.obj [("App", .str "app"), ("Pod-template-hash", .str "pod-template-hash")]) (fieldOf "App" o₂ ++ fieldOf "Pod-template-hash" o₃)
    (by repeat (first | apply noKey_append | apply noKey_fieldOf | apply noKey_objectOf |
      apply noKey_cons | apply noKey_nil | decide))
    (by repeat (first | apply noKey_cons | apply noKey_nil | decide))
  rw [show ("Labels", JVal.obj [("App", .str "app"), ("Pod-template-hash", .str "pod-template-hash")]) :: kubernetesSchema.drop 2 = kubernetesSchema.drop 1
    from rfl] at e2
  have e3 := leafUpdate_at ([] ++ fieldOf "Host" o₁ ++ objectOf "Labels" (fieldOf "App" o₂ ++ fieldOf "Pod-template-hash" o₃)) (kubernetesSchema.drop 3) "Namespace_name"
    (JVal.str "namespace_name") o₄
    (by repeat (first | apply noKey_append | apply noKey_fieldOf | apply noKey_objectOf |
      apply noKey_cons | apply noKey_nil | decide))
    (by repeat (first | apply noKey_cons | apply noKey_nil | decide))
  rw [show ("Namespace_name", JVal.str "namespace_name") :: kubernetesSchema.drop 3 = kubernetesSchema.drop 2
    from rfl] at e3
  have e4 := leafUpdate_at ([] ++ fieldOf "Host" o₁ ++ objectOf "Labels" (fieldOf "App" o₂ ++ fieldOf "Pod-template-hash" o₃) ++ fieldOf "Namespace_name" o₄) (kubernetesSchema.drop 4) "Pod_id"
    (JVal.str "pod_id") o₅
    (by repeat (first | apply noKey_append | apply noKey_fieldOf | apply noKey_objectOf |
      apply noKey_cons | apply noKey_nil | decide))
    (by repeat (first | apply noKey_cons | apply noKey_nil | decide))
  rw [show ("Pod_id", JVal.str "pod_id") :: kubernetesSchema.drop 4 = kubernetesSchema.drop 3
    from rfl] at e4
  have e5 := leafUpdate_at ([] ++ fieldOf "Host" o₁ ++ objectOf "Labels" (fieldOf "App" o₂ ++ fieldOf "Pod-template-hash" o₃) ++ fieldOf "Namespace_name" o₄ ++ fieldOf "Pod_id" o₅) (kubernetesSchema.drop 5) "Pod_name"
    (JVal.str "pod_name") o₆
    (by repeat (first | apply noKey_append | apply noKey_fieldOf | apply noKey_objectOf |
      apply noKey_cons | apply noKey_nil | decide))
    (by repeat (first | apply noKey_cons | apply noKey_nil | decide))
  rw [show ("Pod_name", JVal.str "pod_name") :: kubernetesSchema.drop 5 = kubernetesSchema.drop 4
    from rfl] at e5
  have e6 := nestedUpdate_at ([] ++ fieldOf "Host" o₁ ++ objectOf "Labels" (fieldOf "App" o₂ ++ fieldOf "Pod-template-hash" o₃) ++ fieldOf "Namespace_name" o₄ ++ fieldOf "Pod_id" o₅ ++ fieldOf "Pod_name" o₆) (kubernetesSchema.drop 6) "Pod_owners"
    (JVal.obj [("Owner_kind", .str "owner_kind"), ("Owner_name", .str "owner_name")]) (fieldOf "Owner_kind" o₇ ++ fieldOf "Owner_name" o₈)
    (by repeat (first | apply noKey_append | apply noKey_fieldOf | apply noKey_objectOf |
      apply noKey_cons | apply noKey_nil | decide))
    (by repeat (first | apply noKey_cons | apply noKey_nil | decide))
  rw [show ("Pod_owners", JVal.obj [("Owner_kind", .str "owner_kind"), ("Owner_name", .str "owner_name")]) :: kubernetesSchema.drop 6 = kubernetesSchema.drop 5
    from rfl] at e6
  have e7 := leafUpdate_at ([] ++ fieldOf "Host" o₁ ++ objectOf "Labels" (fieldOf "App" o₂ ++ fieldOf "Pod-template-hash" o₃) ++ fieldOf "Namespace_name" o₄ ++ fieldOf "Pod_id" o₅ ++ fieldOf "Pod_name" o₆ ++ objectOf "Pod_owners" (fieldOf "Owner_kind" o₇ ++ fieldOf "Owner_name" o₈)) (kubernetesSchema.drop 7) "Service_name"
    (JVal.str "service_name") o₉
    (by repeat (first | apply noKey_append | apply noKey_fieldOf | apply noKey_objectOf |
      apply noKey_cons | apply noKey_nil | decide))
    (by repeat (first | apply noKey_cons | apply noKey_nil | decide))
  rw [show ("Service_name", JVal.str "service_name") :: kubernetesSchema.drop 7 = kubernetesSchema.drop 6
    from rfl] at e7
  rw [List.nil_append, show kubernetesSchema.drop 0 = kubernetesSchema from rfl] at e1
  rw [e1, e2, e3, e4, e5, e6, e7]
  simp only [List.nil_append, show kubernetesSchema.drop 7 = [] from rfl, List.append_nil]

theorem mapGet_dummy (labels : Labels) (v k : String) (h : k ≠ "dummy") :
    mapGet (mapSet labels "dummy" v) k = mapGet labels k :=
  mapGet_mapSet_ne labels "dummy" k v h

theorem recursivelyFillInMap_kubernetesSchema (labels : Labels) :
    recursivelyFillInMap labels kubernetesSchema =
      (mapSet labels "dummy" "got to the end", .ok (kubernetesObject labels)) := by
  rw [recursivelyFillInMap_eq]
  have hL := recursivelyFillInMap_two_leaves (mapSet labels "dummy" "got to the start")
    "App" "app" "Pod-template-hash" "pod-template-hash" (by decide) (by decide)
  have hO := recursivelyFillInMap_two_leaves (mapSet labels "dummy" "got to the end")
    "Owner_kind" "owner_kind" "Owner_name" "owner_name" (by decide) (by decide)
  rw [two_leaves_updates _ _ _ _ _ _ (by decide), mapSet_mapSet_same] at hL hO
  have hS : kubernetesSchema =
      [("Host", .str "host_name"),
       ("Labels", .obj [("App", .str "app"), ("Pod-template-hash", .str "pod-template-hash")]),
       ("Namespace_name", .str "namespace_name"),
       ("Pod_id", .str "pod_id"),
       ("Pod_name", .str "pod_name"),
       ("Pod_owners",
         .obj [("Owner_kind", .str "owner_kind"), ("Owner_name", .str "owner_name")]),
       ("Service_name", .str "service_name")] := rfl
  have hrun : recursivelyFillInMap.loop kubernetesSchema
      (mapSet labels "dummy" "got to the start") kubernetesSchema =
      (mapSet labels "dummy" "got to the end", .ok (kubernetesObject labels)) := by
    conv => lhs; arg 1; rw [hS]
    rw [loop_str, loop_obj, hL]
    simp only
    rw [loop_str, loop_str, loop_str, loop_obj, hO]
    simp only
    rw [loop_str, loop_nil]
    simp only [mapGet_dummy _ _ _ (by decide : "host_name" ≠ "dummy"),
      mapGet_dummy _ _ _ (by decide : "app" ≠ "dummy"),
      mapGet_dummy _ _ _ (by decide : "pod-template-hash" ≠ "dummy"),
      mapGet_dummy _ _ _ (by decide : "namespace_name" ≠ "dummy"),
      mapGet_dummy _ _ _ (by decide : "pod_id" ≠ "dummy"),
      mapGet_dummy _ _ _ (by decide : "pod_name" ≠ "dummy"),
      mapGet_dummy _ _ _ (by decide : "owner_kind" ≠ "dummy"),
      mapGet_dummy _ _ _ (by decide : "owner_name" ≠ "dummy"),
      mapGet_dummy _ _ _ (by decide : "service_name" ≠ "dummy")]
    rw [kubernetes_updates]
    rfl
  rw [hrun]
  simp only [mapSet_mapSet_same]

theorem addKubernetesWrapper_eq (labels : Labels) :
    addKubernetesWrapper labels =
      (mapSet (mapSet labels "dummy" "got to the end") "kubernetes"
        (jsonMarshal (.obj (kubernetesObject labels))), none) := by
  simp only [addKubernetesWrapper, recursivelyFillInStruct,
    recursivelyFillInMap_kubernetesSchema]

/-! ## C10: the enrichment object -/

theorem noKey_append_iff {κ α : Type} (k : κ) (a b : List (κ × α)) :
    NoKey k (a ++ b) ↔ NoKey k a ∧ NoKey k b := by
  constructor
  · intro h
    exact ⟨fun p hp => h p (List.mem_append_left _ hp),
      fun p hp => h p (List.mem_append_right _ hp)⟩
  · rintro ⟨ha, hb⟩
    exact noKey_append ha hb

theorem mapGet_of_noKey {κ α : Type} [DecidableEq κ] (l : List (κ × α)) (k : κ)
    (h : NoKey k l) : mapGet l k = none := by
  induction l with
  | nil => rfl
  | cons p rest ih =>
    obtain ⟨k', v'⟩ := p
    have hne : ¬ k' = k := h (k', v') (List.mem_cons_self _ _)
    have hrest : NoKey k rest := fun q hq => h q (List.mem_cons_of_mem _ hq)
    simp [mapGet, hne, ih hrest]

theorem mapGet_append_skip {κ α : Type} [DecidableEq κ] (done l : List (κ × α)) (k : κ)
    (h : NoKey k done) : mapGet (done ++ l) k = mapGet l k := by
  induction done with
  | nil => rfl
  | cons p rest ih =>
    obtain ⟨k', v'⟩ := p
    have hne : ¬ k' = k := h (k', v') (List.mem_cons_self _ _)
    have hrest : NoKey k rest := fun q hq => h q (List.mem_cons_of_mem _ hq)
    simp [mapGet, hne, ih hrest]

theorem mapGet_append_drop {κ α : Type} [DecidableEq κ] (l rest : List (κ × α)) (k : κ)
    (h : NoKey k rest) : mapGet (l ++ rest) k = mapGet l k := by
  induction l with
  | nil => simpa using mapGet_of_noKey rest k h
  | cons p tail ih =>
    obtain ⟨k', v'⟩ := p
    by_cases hk : k' = k
    · simp [mapGet, hk]
    · simp [mapGet, hk, ih]

theorem mapGet_fieldOf (name k : String) (label : Option String) :
    mapGet (fieldOf name label) k = if name = k then label.map JVal.str else none := by
  cases label <;> simp [fieldOf, mapGet]

theorem mapGet_objectOf_ne (name k : String) (members : List (String × JVal))
    (h : name ≠ k) : mapGet (objectOf name members) k = none := by
  cases members <;> simp [objectOf, mapGet, h]

theorem mapGet_objectOf_same (name : String) (members : List (String × JVal)) :
    mapGet (objectOf name members) name =
      match members with
      | [] => none
      | _ :: _ => some (.obj members) := by
  cases members <;> simp [objectOf, mapGet]

theorem memberAt_nil (v : JVal) : v.memberAt [] = some v := by
  cases v <;> rfl

theorem memberAt_cons (o : List (String × JVal)) (name : String) (path : List String) :
    (JVal.obj o).memberAt (name :: path) =
      (mapGet o name).bind (fun v => v.memberAt path) := by
  simp only [JVal.memberAt, JVal.member]
  cases mapGet o name <;> rfl

theorem two_fields_first (a b : String) (o₁ o₂ : Option String) (h : a ≠ b) :
    (match fieldOf a o₁ ++ fieldOf b o₂ with
      | [] => none
      | _ :: _ => some (JVal.obj (fieldOf a o₁ ++ fieldOf b o₂))).bind
        (fun v => v.memberAt [a]) = o₁.map JVal.str := by
  have h' : ¬ b = a := fun e => h e.symm
  cases o₁ <;> cases o₂ <;> simp [fieldOf, JVal.memberAt, JVal.member, mapGet, h']

theorem two_fields_second (a b : String) (o₁ o₂ : Option String) (h : a ≠ b) :
    (match fieldOf a o₁ ++ fieldOf b o₂ with
      | [] => none
      | _ :: _ => some (JVal.obj (fieldOf a o₁ ++ fieldOf b o₂))).bind
        (fun v => v.memberAt [b]) = o₂.map JVal.str := by
  cases o₁ <;> cases o₂ <;> simp [fieldOf, JVal.memberAt, JVal.member, mapGet, h]

theorem two_fields_present (a b : String) (o₁ o₂ : Option String) :
    (match fieldOf a o₁ ++ fieldOf b o₂ with
      | [] => none
      | _ :: _ => some (JVal.obj (fieldOf a o₁ ++ fieldOf b o₂))).isSome =
      (o₁.isSome || o₂.isSome) := by
  cases o₁ <;> cases o₂ <;> simp [fieldOf]

/-- C10: `addKubernetesWrapper` returns no error and stores under `kubernetes` the
serialization of the object `kubernetesObject labels`; in that object each field holds the
value of its flat label exactly when the input label map has that label and is absent
otherwise, each of the two sub-objects is present exactly when one of its two labels
exists, and with none of the nine labels the stored text is the empty object. -/
theorem addKubernetesWrapper_object (labels : Labels) :
    (addKubernetesWrapper labels).2 = none ∧
    mapGet (addKubernetesWrapper labels).1 "kubernetes" =
      some (jsonMarshal (.obj (kubernetesObject labels))) ∧
    (JVal.obj (kubernetesObject labels)).memberAt ["Host"] =
      (mapGet labels "host_name").map JVal.str ∧
    (JVal.obj (kubernetesObject labels)).memberAt ["Labels", "App"] =
      (mapGet labels "app").map JVal.str ∧
    (JVal.obj (kubernetesObject labels)).memberAt ["Labels", "Pod-template-hash"] =
      (mapGet labels "pod-template-hash").map JVal.str ∧
    (JVal.obj (kubernetesObject labels)).memberAt ["Namespace_name"] =
      (mapGet labels "namespace_name").map JVal.str ∧
    (JVal.obj (kubernetesObject labels)).memberAt ["Pod_id"] =
      (mapGet labels "pod_id").map JVal.str ∧
    (JVal.obj (kubernetesObject labels)).memberAt ["Pod_name"] =
      (mapGet labels "pod_name").map JVal.str ∧
    (JVal.obj (kubernetesObject labels)).memberAt ["Pod_owners", "Owner_kind"] =
      (mapGet labels "owner_kind").map JVal.str ∧
    (JVal.obj (kubernetesObject labels)).memberAt ["Pod_owners", "Owner_name"] =
      (mapGet labels "owner_name").map JVal.str ∧
    (JVal.obj (kubernetesObject labels)).memberAt ["Service_name"] =
      (mapGet labels "service_name").map JVal.str ∧
    ((JVal.obj (kubernetesObject labels)).memberAt ["Labels"]).isSome =
      ((mapGet labels "app").isSome || (mapGet labels "pod-template-hash").isSome) ∧
    ((JVal.obj (kubernetesObject labels)).memberAt ["Pod_owners"]).isSome =
      ((mapGet labels "owner_kind").isSome || (mapGet labels "owner_name").isSome) ∧
    (
      mapGet labels "host_name" = none →
      mapGet labels "app" = none →
      mapGet labels "pod-template-hash" = none →
      mapGet labels "namespace_name" = none →
      mapGet labels "pod_id" = none →
      mapGet labels "pod_name" = none →
      mapGet labels "owner_kind" = none →
      mapGet labels "owner_name" = none →
      mapGet labels "service_name" = none →
      mapGet (addKubernetesWrapper labels).1 "kubernetes" = some "\x7b\x7d") := by
  have hget : mapGet (addKubernetesWrapper labels).1 "kubernetes" =
      some (jsonMarshal (.obj (kubernetesObject labels))) := by
    rw [addKubernetesWrapper_eq]
    exact mapGet_mapSet_same _ _ _
  refine ⟨by rw [addKubernetesWrapper_eq], hget, ?_, ?_, ?_, ?_, ?_, ?_, ?_, ?_, ?_, ?_, ?_, ?_⟩
  case refine_12 =>
    intro h1 h2 h3 h4 h5 h6 h7 h8 h9
    rw [hget, kubernetesObject, h1, h2, h3, h4, h5, h6, h7, h8, h9]
    rfl
  all_goals
    simp only [memberAt_cons]
    simp [kubernetesObject, mapGet_append_skip, mapGet_append_drop,
      noKey_fieldOf, noKey_objectOf, noKey_append_iff, mapGet_fieldOf, mapGet_objectOf_same,
      two_fields_first, two_fields_second, two_fields_present, memberAt_nil]

/-- Witness of C10: a label map with none of the nine labels gets the empty object. -/
theorem addKubernetesWrapper_object_witness :
    mapGet (addKubernetesWrapper [("Type", "Pod")]).1 "kubernetes" = some "\x7b\x7d" :=
  (addKubernetesWrapper_object [("Type", "Pod")]).2.2.2.2.2.2.2.2.2.2.2.2.2
    rfl rfl rfl rfl rfl rfl rfl rfl rfl

/-! ## C9: when the enrichment is applied -/

theorem enrich_some (labels : Labels) (c : Config) :
    addToGroupedMetric.enrich labels (some c) =
      (if hasObjectType labels ∧ c.CreateEKSFargateKubernetesObject = true then
        (addKubernetesWrapper labels).1 else labels, .noError) := by
  simp only [addToGroupedMetric.enrich, hasObjectType, andCreateEKSFargateKubernetesObject,
    addKubernetesWrapper_eq]
  cases hT : mapGet labels "Type" with
  | none => simp
  | some t =>
    by_cases hp : t = "Pod"
    · subst hp
      cases hc : c.CreateEKSFargateKubernetesObject <;> simp [hc]
    · by_cases hk : t = "Container"
      · subst hk
        cases hc : c.CreateEKSFargateKubernetesObject <;> simp [hc]
      · simp [hp, hk]

theorem enrich_nil (labels : Labels) :
    addToGroupedMetric.enrich labels none =
      if hasObjectType labels then (labels, .nilDereference) else (labels, .noError) := by
  unfold addToGroupedMetric.enrich hasObjectType
  split
  · rename_i t hT
    simp only [hT, andCreateEKSFargateKubernetesObject]
    by_cases hp : t = "Pod"
    · subst hp
      simp
    · by_cases hk : t = "Container"
      · subst hk
        simp
      · simp [hp, hk]
  · rename_i hT
    simp [hT]

/-- C9: with a configuration `c`, the iteration on a retained data point merges it under the
label map `addKubernetesWrapper` leaves exactly when the point has the label `Type` with
value `Pod` or `Container` and the flag of `c` is set, and under the point's own label map,
unchanged, in every other case; that map is the one lines 58-74 hand on.  Without a
configuration the point's own label map is used when it has no such `Type`, and the flag is
dereferenced otherwise. -/
theorem enrichment_exactly_when (pmd : Metric) (descriptor : List (String × MetricDescriptor))
    (c : Config) (st : LoopState) (dp : DataPoint) :
    addToGroupedMetric.step pmd descriptor (some c) st (dp, true) =
      (addToGroupedMetric.merge pmd descriptor dp
        (if hasObjectType dp.Labels ∧ c.CreateEKSFargateKubernetesObject = true then
          (addKubernetesWrapper dp.Labels).1 else dp.Labels) st, .noError) ∧
    addToGroupedMetric.enrich dp.Labels (some c) =
      (if hasObjectType dp.Labels ∧ c.CreateEKSFargateKubernetesObject = true then
        (addKubernetesWrapper dp.Labels).1 else dp.Labels, .noError) ∧
    addToGroupedMetric.step pmd descriptor none st (dp, true) =
      (if hasObjectType dp.Labels then (st, .nilDereference)
        else (addToGroupedMetric.merge pmd descriptor dp dp.Labels st, .noError)) := by
  refine ⟨?_, enrich_some dp.Labels c, ?_⟩
  · rw [step_retained, enrich_some]
    simp
  · rw [step_retained, enrich_nil]
    by_cases h : hasObjectType dp.Labels <;> simp [h]

/-! ## C7, C8: what the merge of a retained point adds -/

theorem withTimestamp_self (metadata : CWMetricMetadata) :
    withTimestamp metadata metadata.GroupedMetricMetadata.TimestampMs = metadata := rfl

theorem withTimestamp_withTimestamp (metadata : CWMetricMetadata) (a b : Int) :
    withTimestamp (withTimestamp metadata a) b = withTimestamp metadata b := rfl

theorem merge_metadata_if (dp : DataPoint) (metadata : CWMetricMetadata) :
    (if dp.TimestampMs > 0 then
      { metadata with
        GroupedMetricMetadata :=
          { metadata.GroupedMetricMetadata with TimestampMs := dp.TimestampMs } }
    else metadata) =
      withTimestamp metadata
        (if dp.TimestampMs > 0 then dp.TimestampMs
          else metadata.GroupedMetricMetadata.TimestampMs) := by
  by_cases h : dp.TimestampMs > 0
  · simp only [h, if_true]; rfl
  · simp only [h, if_false]; rfl

theorem merge_eq (pmd : Metric) (descriptor : List (String × MetricDescriptor))
    (dp : DataPoint) (labels : Labels) (st : LoopState) :
    addToGroupedMetric.merge pmd descriptor dp labels st =
      { groupedMetrics :=
          match mapGet st.groupedMetrics
            (groupedMetricKey
              (withTimestamp st.metadata
                (if dp.TimestampMs > 0 then dp.TimestampMs
                  else st.metadata.GroupedMetricMetadata.TimestampMs)).GroupedMetricMetadata
              labels) with
          | some group =>
            match mapGet group.Metrics pmd.Name with
            | some _ => st.groupedMetrics
            | none =>
              mapSet st.groupedMetrics
                (groupedMetricKey
                  (withTimestamp st.metadata
                    (if dp.TimestampMs > 0 then dp.TimestampMs
                      else st.metadata.GroupedMetricMetadata.TimestampMs)).GroupedMetricMetadata
                  labels)
                { group with
                  Metrics := mapSet group.Metrics pmd.Name
                    { Value := dp.Value, Unit := translateUnit pmd descriptor } }
          | none =>
            mapSet st.groupedMetrics
              (groupedMetricKey
                (withTimestamp st.metadata
                  (if dp.TimestampMs > 0 then dp.TimestampMs
                    else st.metadata.GroupedMetricMetadata.TimestampMs)).GroupedMetricMetadata
                labels)
              { Labels := labels,
                Metrics := [(pmd.Name,
                  { Value := dp.Value, Unit := translateUnit pmd descriptor })],
                Metadata := withTimestamp st.metadata
                  (if dp.TimestampMs > 0 then dp.TimestampMs
                    else st.metadata.GroupedMetricMetadata.TimestampMs) },
        metadata := withTimestamp st.metadata
          (if dp.TimestampMs > 0 then dp.TimestampMs
            else st.metadata.GroupedMetricMetadata.TimestampMs) } := by
  simp only [addToGroupedMetric.merge, merge_metadata_if]
  split
  · split <;> rfl
  · rfl

theorem timestampInEffect_nil (t : Int) : timestampInEffect t [] = t := rfl

theorem timestampInEffect_cons (t : Int) (point : DataPoint × Bool)
    (rest : List (DataPoint × Bool)) :
    timestampInEffect t (point :: rest) =
      timestampInEffect
        (if point.2 = true ∧ point.1.TimestampMs > 0 then point.1.TimestampMs else t) rest := by
  unfold timestampInEffect
  by_cases h : point.2 = true ∧ point.1.TimestampMs > 0
  · have hf : (fun point : DataPoint × Bool =>
        point.2 && decide (point.1.TimestampMs > 0)) point = true := by
      simp [h.1, h.2]
    rw [@List.filter_cons_of_pos _ (fun point : DataPoint × Bool =>
      point.2 && decide (point.1.TimestampMs > 0)) point rest hf, if_pos h, List.getLast?_cons]
    cases (List.filter (fun point : DataPoint × Bool =>
      point.2 && decide (point.1.TimestampMs > 0)) rest).getLast? <;> rfl
  · have hf : ¬ (fun point : DataPoint × Bool =>
        point.2 && decide (point.1.TimestampMs > 0)) point = true := by
      simpa using h
    rw [@List.filter_cons_of_neg _ (fun point : DataPoint × Bool =>
      point.2 && decide (point.1.TimestampMs > 0)) point rest hf, if_neg h]

theorem step_metadata (pmd : Metric) (descriptor : List (String × MetricDescriptor))
    (config : Option Config) (st st' : LoopState) (point : DataPoint × Bool)
    (h : addToGroupedMetric.step pmd descriptor config st point = (st', .noError)) :
    st'.metadata = withTimestamp st.metadata
      (if point.2 = true ∧ point.1.TimestampMs > 0 then point.1.TimestampMs
        else st.metadata.GroupedMetricMetadata.TimestampMs) := by
  obtain ⟨dp, retained⟩ := point
  cases retained with
  | false =>
    rw [step_not_retained] at h
    cases h
    simp [withTimestamp_self]
  | true =>
    rw [step_retained] at h
    by_cases he : (addToGroupedMetric.enrich dp.Labels config).2 = .noError
    · simp only [he, if_true, Prod.mk.injEq, and_true] at h
      rw [← h, merge_eq]
      simp
    · simp [he] at h

theorem loop_metadata (pmd : Metric) (descriptor : List (String × MetricDescriptor))
    (config : Option Config) (pre : List (DataPoint × Bool)) (st₀ st : LoopState)
    (h : addToGroupedMetric.loop pmd descriptor config pre st₀ = (st, .noError)) :
    st.metadata = withTimestamp st₀.metadata
      (timestampInEffect st₀.metadata.GroupedMetricMetadata.TimestampMs pre) := by
  induction pre generalizing st₀ with
  | nil =>
    simp only [addToGroupedMetric.loop, Prod.mk.injEq, and_true] at h
    rw [← h, timestampInEffect_nil, withTimestamp_self]
  | cons point rest ih =>
    rw [loop_cons] at h
    by_cases hs : (addToGroupedMetric.step pmd descriptor config st₀ point).2 = .noError
    · simp only [hs, if_true] at h
      have hstep : addToGroupedMetric.step pmd descriptor config st₀ point =
          ((addToGroupedMetric.step pmd descriptor config st₀ point).1, .noError) := by
        rw [← hs]
      have hm := step_metadata pmd descriptor config st₀ _ point hstep
      rw [ih _ h, hm, timestampInEffect_cons, withTimestamp_withTimestamp]
      rfl
    · simp only [hs, if_false] at h
      rw [h] at hs
      exact absurd rfl hs

theorem loop_snoc_retained (pmd : Metric) (descriptor : List (String × MetricDescriptor))
    (config : Option Config) (pre : List (DataPoint × Bool)) (st₀ st : LoopState)
    (dp : DataPoint) (labels : Labels)
    (hpre : addToGroupedMetric.loop pmd descriptor config pre st₀ = (st, .noError))
    (henrich : addToGroupedMetric.enrich dp.Labels config = (labels, .noError)) :
    addToGroupedMetric.loop pmd descriptor config (pre ++ [(dp, true)]) st₀ =
      (addToGroupedMetric.merge pmd descriptor dp labels st, .noError) := by
  rw [loop_append, hpre]
  simp only [if_true]
  rw [loop_cons, step_retained, henrich]
  simp [addToGroupedMetric.loop]

/-- C7: let a call reach the retained data point `dp` with the loop state `st`, and let
`labels` be the point's label map after line 74.  With the key `k` computed from the call's
metadata at the timestamp in effect for the point: if `k` is not in the buckets, the
iteration appends one group at `k`, holding `labels`, the single metric of the point with
the unit `translateUnit` gives, and that metadata, and it touches no other key; the call
ends with that group's labels, metadata and metric in place.  If `k` is in the buckets
without the metric's name, the iteration adds that one metric to the group and touches
nothing else. -/
theorem addToGroupedMetric_adds_point (pmd : Metric)
    (descriptor : List (String × MetricDescriptor)) (config : Option Config)
    (groupedMetrics : List (Key × GroupedMetric)) (metadata : CWMetricMetadata)
    (pre post : List (DataPoint × Bool)) (dp : DataPoint) (st : LoopState) (labels : Labels)
    (hdps : pmd.DataPoints = some (pre ++ (dp, true) :: post))
    (hpre : addToGroupedMetric.loop pmd descriptor config pre
      { groupedMetrics := groupedMetrics, metadata := metadata } = (st, .noError))
    (henrich : addToGroupedMetric.enrich dp.Labels config = (labels, .noError)) :
    let metadata' := withTimestamp metadata
      (if dp.TimestampMs > 0 then dp.TimestampMs
        else timestampInEffect metadata.GroupedMetricMetadata.TimestampMs pre)
    let k := groupedMetricKey metadata'.GroupedMetricMetadata labels
    let metric : MetricInfo := { Value := dp.Value, Unit := translateUnit pmd descriptor }
    let after := (addToGroupedMetric.loop pmd descriptor config (pre ++ [(dp, true)])
      { groupedMetrics := groupedMetrics, metadata := metadata }).1.groupedMetrics
    (mapGet st.groupedMetrics k = none →
      after = st.groupedMetrics ++
        [(k, { Labels := labels, Metrics := [(pmd.Name, metric)], Metadata := metadata' })] ∧
      mapGet after k =
        some { Labels := labels, Metrics := [(pmd.Name, metric)], Metadata := metadata' } ∧
      (∀ k', k' ≠ k → mapGet after k' = mapGet st.groupedMetrics k') ∧
      ∃ g, mapGet (addToGroupedMetric (some pmd) groupedMetrics metadata descriptor
          config).1 k = some g ∧
        g.Labels = labels ∧ g.Metadata = metadata' ∧
        mapGet g.Metrics pmd.Name = some metric) ∧
    (∀ g, mapGet st.groupedMetrics k = some g → mapGet g.Metrics pmd.Name = none →
      mapGet after k = some { g with Metrics := g.Metrics ++ [(pmd.Name, metric)] } ∧
      (∀ k', k' ≠ k → mapGet after k' = mapGet st.groupedMetrics k')) := by
  intro metadata' k metric after
  have hst := loop_metadata pmd descriptor config pre _ st hpre
  have hsnoc := loop_snoc_retained pmd descriptor config pre _ st dp labels hpre henrich
  have hmd : withTimestamp st.metadata
      (if dp.TimestampMs > 0 then dp.TimestampMs
        else st.metadata.GroupedMetricMetadata.TimestampMs) = metadata' := by
    rw [hst]
    rfl
  have hafter : after = (addToGroupedMetric.merge pmd descriptor dp labels st).groupedMetrics := by
    show (addToGroupedMetric.loop pmd descriptor config (pre ++ [(dp, true)])
      { groupedMetrics := groupedMetrics, metadata := metadata }).1.groupedMetrics = _
    rw [hsnoc]
  rw [merge_eq, hmd] at hafter
  constructor
  · intro hk
    have hk₂ : mapGet st.groupedMetrics
        (groupedMetricKey metadata'.GroupedMetricMetadata labels) = none := hk
    simp only [hk₂] at hafter
    have hset : after = mapSet st.groupedMetrics k
        { Labels := labels, Metrics := [(pmd.Name, metric)], Metadata := metadata' } := hafter
    refine ⟨?_, ?_, ?_, ?_⟩
    · rw [hset, mapSet_of_mapGet_none _ _ _ hk]
    · rw [hset, mapGet_mapSet_same]
    · intro k' hne
      rw [hset, mapGet_mapSet_ne _ _ _ _ hne]
    · have hall : pre ++ (dp, true) :: post = (pre ++ [(dp, true)]) ++ post := by simp
      have hrun : (addToGroupedMetric (some pmd) groupedMetrics metadata descriptor config).1 =
          (addToGroupedMetric.loop pmd descriptor config post
            (addToGroupedMetric.merge pmd descriptor dp labels st)).1.groupedMetrics := by
        simp only [addToGroupedMetric, getDataPoints, hdps]
        rw [if_neg (by simp), hall, loop_append, hsnoc]
        simp
      have hkept := loop_kept pmd descriptor config post
        (addToGroupedMetric.merge pmd descriptor dp labels st)
      have hmerge : (addToGroupedMetric.merge pmd descriptor dp labels st).groupedMetrics =
          after := by
        rw [hafter, merge_eq, hmd]
        simp only [hk₂]
      rw [hmerge] at hkept
      obtain ⟨g, hg, hl, hm, hkeep⟩ := hkept k _ (by rw [hset, mapGet_mapSet_same])
      refine ⟨g, by rw [hrun]; exact hg, hl, hm, hkeep pmd.Name metric ?_⟩
      simp [mapGet]
  · intro g hg hname
    have hg' : mapGet st.groupedMetrics
        (groupedMetricKey metadata'.GroupedMetricMetadata labels) = some g := hg
    simp only [hg', hname] at hafter
    have hset : after = mapSet st.groupedMetrics k
        { g with Metrics := mapSet g.Metrics pmd.Name metric } := hafter
    refine ⟨?_, ?_⟩
    · rw [hset, mapGet_mapSet_same, mapSet_of_mapGet_none _ _ _ hname]
    · intro k' hne
      rw [hset, mapGet_mapSet_ne _ _ _ _ hne]

/-- Witness of C7: the sample point, first of its call, opens a group of its own in the
sample buckets. -/
theorem addToGroupedMetric_adds_point_witness :
    mapGet (addToGroupedMetric.loop sampleMetricMem [] none ([] ++ [(samplePoint, true)])
        { groupedMetrics := sampleBuckets, metadata := sampleMetadata }).1.groupedMetrics
        (groupedMetricKey (withTimestamp sampleMetadata 7).GroupedMetricMetadata
          [("host", "b")]) =
      some { Labels := [("host", "b")],
             Metrics := [("mem", { Value := .intVal 9, Unit := "Bytes" })],
             Metadata := withTimestamp sampleMetadata 7 } :=
  ((addToGroupedMetric_adds_point sampleMetricMem [] none sampleBuckets sampleMetadata [] []
    samplePoint { groupedMetrics := sampleBuckets, metadata := sampleMetadata }
    [("host", "b")] rfl rfl rfl).1 (by decide)).2.1

/-- C8: let a call reach the retained data point `dp` with the loop state `st`, and let
`labels` be the point's label map after line 74.  The timestamp `t` of the point is its own
when that is positive and otherwise the one in effect, which is the timestamp the loop
carries on reaching the point: that of the last earlier retained point with a positive
timestamp, or the caller's when there is none.  The iteration carries `t` on, changes the
buckets at most at the key computed with `t`, and a group it creates there stores `t`. -/
theorem addToGroupedMetric_point_timestamp (pmd : Metric)
    (descriptor : List (String × MetricDescriptor)) (config : Option Config)
    (groupedMetrics : List (Key × GroupedMetric)) (metadata : CWMetricMetadata)
    (pre : List (DataPoint × Bool)) (dp : DataPoint) (st : LoopState) (labels : Labels)
    (hpre : addToGroupedMetric.loop pmd descriptor config pre
      { groupedMetrics := groupedMetrics, metadata := metadata } = (st, .noError))
    (henrich : addToGroupedMetric.enrich dp.Labels config = (labels, .noError)) :
    let t := if dp.TimestampMs > 0 then dp.TimestampMs
      else timestampInEffect metadata.GroupedMetricMetadata.TimestampMs pre
    let k := groupedMetricKey (withTimestamp metadata t).GroupedMetricMetadata labels
    let after := (addToGroupedMetric.loop pmd descriptor config (pre ++ [(dp, true)])
      { groupedMetrics := groupedMetrics, metadata := metadata }).1
    st.metadata = withTimestamp metadata
      (timestampInEffect metadata.GroupedMetricMetadata.TimestampMs pre) ∧
    after.metadata = withTimestamp metadata t ∧
    (∀ k', k' ≠ k → mapGet after.groupedMetrics k' = mapGet st.groupedMetrics k') ∧
    (∃ g, mapGet after.groupedMetrics k = some g ∧
      (mapGet st.groupedMetrics k = none →
        g.Metadata.GroupedMetricMetadata.TimestampMs = t)) ∧
    (∀ (before later : List (DataPoint × Bool)) (q : DataPoint × Bool),
      pre = before ++ q :: later → q.2 = true → q.1.TimestampMs > 0 →
      (∀ r ∈ later, ¬ (r.2 = true ∧ r.1.TimestampMs > 0)) →
      timestampInEffect metadata.GroupedMetricMetadata.TimestampMs pre = q.1.TimestampMs) ∧
    ((∀ r ∈ pre, ¬ (r.2 = true ∧ r.1.TimestampMs > 0)) →
      timestampInEffect metadata.GroupedMetricMetadata.TimestampMs pre =
        metadata.GroupedMetricMetadata.TimestampMs) := by
  intro t k after
  have hst := loop_metadata pmd descriptor config pre _ st hpre
  have hsnoc := loop_snoc_retained pmd descriptor config pre _ st dp labels hpre henrich
  have hmd : withTimestamp st.metadata
      (if dp.TimestampMs > 0 then dp.TimestampMs
        else st.metadata.GroupedMetricMetadata.TimestampMs) = withTimestamp metadata t := by
    rw [hst]
    rfl
  have hafter : after = addToGroupedMetric.merge pmd descriptor dp labels st := by
    show (addToGroupedMetric.loop pmd descriptor config (pre ++ [(dp, true)])
      { groupedMetrics := groupedMetrics, metadata := metadata }).1 = _
    rw [hsnoc]
  rw [merge_eq, hmd] at hafter
  refine ⟨hst, by rw [hafter], ?_, ?_, ?_, ?_⟩
  · intro k' hne
    rw [hafter]
    simp only
    split
    · split
      · rfl
      · exact mapGet_mapSet_ne _ _ _ _ hne
    · exact mapGet_mapSet_ne _ _ _ _ hne
  · rw [hafter]
    simp only
    cases hk : mapGet st.groupedMetrics k with
    | none =>
      have hk₂ : mapGet st.groupedMetrics
          (groupedMetricKey (withTimestamp metadata t).GroupedMetricMetadata labels) = none := hk
      simp only [hk₂]
      exact ⟨_, mapGet_mapSet_same _ _ _, fun _ => rfl⟩
    | some g =>
      have hk₂ : mapGet st.groupedMetrics
          (groupedMetricKey (withTimestamp metadata t).GroupedMetricMetadata labels) = some g :=
        hk
      simp only [hk₂]
      split
      · exact ⟨g, hk₂, fun h => by cases h⟩
      · exact ⟨_, mapGet_mapSet_same _ _ _, fun h => by cases h⟩
  · intro before later q hq hr hpos hlater
    subst hq
    have hq : (fun point : DataPoint × Bool =>
        point.2 && decide (point.1.TimestampMs > 0)) q = true := by
      simp [hr, hpos]
    have hnil : List.filter (fun point : DataPoint × Bool =>
        point.2 && decide (point.1.TimestampMs > 0)) later = [] := by
      rw [List.filter_eq_nil_iff]
      intro r hmem
      simpa using hlater r hmem
    simp only [timestampInEffect, List.filter_append]
    rw [@List.filter_cons_of_pos _ (fun point : DataPoint × Bool =>
      point.2 && decide (point.1.TimestampMs > 0)) q later hq, hnil, List.getLast?_concat]
  · intro hnone
    have hnil : List.filter (fun point : DataPoint × Bool =>
        point.2 && decide (point.1.TimestampMs > 0)) pre = [] := by
      rw [List.filter_eq_nil_iff]
      intro r hmem
      simpa using hnone r hmem
    simp only [timestampInEffect, hnil, List.getLast?_nil]

/-- Witness of C8: after the sample point, which carries the timestamp 7, a point without
a timestamp is merged at 7, not at the caller's 5. -/
theorem addToGroupedMetric_point_timestamp_witness :
    (addToGroupedMetric.loop sampleMetricMem [] none
        ([(samplePoint, true)] ++ [(samplePointUnset, true)])
        { groupedMetrics := sampleBuckets, metadata := sampleMetadata }).1.metadata =
      withTimestamp sampleMetadata 7 ∧
    timestampInEffect sampleMetadata.GroupedMetricMetadata.TimestampMs [(samplePoint, true)] =
      samplePoint.TimestampMs :=
  ⟨(addToGroupedMetric_point_timestamp sampleMetricMem [] none sampleBuckets sampleMetadata
      [(samplePoint, true)] samplePointUnset
      (addToGroupedMetric.loop sampleMetricMem [] none [(samplePoint, true)]
        { groupedMetrics := sampleBuckets, metadata := sampleMetadata }).1
      [("host", "a")] (by decide) rfl).2.1,
   (addToGroupedMetric_point_timestamp sampleMetricMem [] none sampleBuckets sampleMetadata
      [(samplePoint, true)] samplePointUnset
      (addToGroupedMetric.loop sampleMetricMem [] none [(samplePoint, true)]
        { groupedMetrics := sampleBuckets, metadata := sampleMetadata }).1
      [("host", "a")] (by decide) rfl).2.2.2.2.1 [] [] (samplePoint, true) rfl rfl
      (by decide) (by simp)⟩

/-! ## C11, C12: the resolution of placeholders -/

theorem mem_of_mapGet {κ α : Type} [DecidableEq κ] (l : List (κ × α)) (k : κ) (v : α)
    (h : mapGet l k = some v) : (k, v) ∈ l := by
  induction l with
  | nil => simp [mapGet] at h
  | cons p rest ih =>
    obtain ⟨k', v'⟩ := p
    by_cases hk : k' = k
    · simp only [mapGet, hk, if_true, Option.some.injEq] at h
      subst hk
      subst h
      exact List.mem_cons_self _ _
    · simp only [mapGet, hk, if_false] at h
      exact List.mem_cons_of_mem _ (ih h)

theorem startsText_iff (token text : List Char) :
    startsText token text = true ↔ token <+: text := by
  induction token generalizing text with
  | nil => simp [startsText]
  | cons p ps ih =>
    cases text with
    | nil => simp [startsText]
    | cons c cs =>
      simp only [startsText, Bool.and_eq_true, decide_eq_true_eq, ih, List.cons_prefix_cons]

theorem startsText_append_brace (body cs x : List Char) (h : Char.ofNat 123 ∉ body) :
    startsText body (cs ++ Char.ofNat 123 :: x) = startsText body cs := by
  induction body generalizing cs with
  | nil => simp [startsText]
  | cons b bs ih =>
    simp only [List.mem_cons, not_or] at h
    cases cs with
    | nil =>
      have hb : ¬ b = Char.ofNat 123 := fun e => h.1 e.symm
      simp [startsText, hb]
    | cons d ds =>
      rw [List.cons_append]
      simp only [startsText, ih ds h.2]

theorem find?_ext {α : Type} (p q : α → Bool) (l : List α) (h : ∀ a ∈ l, p a = q a) :
    l.find? p = l.find? q := by
  induction l with
  | nil => rfl
  | cons a rest ih =>
    simp only [List.find?, h a (List.mem_cons_self _ _)]
    rw [ih (fun b hb => h b (List.mem_cons_of_mem _ hb))]

theorem table_names_no_brace :
    ∀ entry ∈ patternKeyToAttributeMap,
      Char.ofNat 123 ∉ entry.1.toList ++ [Char.ofNat 125] := by
  decide

theorem tokenAt_append_brace (c : Char) (cs x : List Char) :
    tokenAt ((c :: cs) ++ Char.ofNat 123 :: x) = tokenAt (c :: cs) := by
  simp only [tokenAt]
  apply find?_ext
  intro entry hmem
  rw [List.cons_append]
  simp only [tokenChars, startsText,
    startsText_append_brace _ _ _ (table_names_no_brace entry hmem)]

theorem startsText_length (token text : List Char) (h : startsText token text = true) :
    token.length ≤ text.length :=
  ((startsText_iff token text).mp h).length_le

theorem tokenAt_length (text : List Char) (entry : String × List String)
    (h : tokenAt text = some entry) : entry.1.length + 2 ≤ text.length := by
  have hp := List.find?_some h
  have hl := startsText_length _ _ hp
  simp only [tokenChars, List.length_cons, List.length_append, List.length_singleton] at hl
  have : entry.1.length = entry.1.toList.length := rfl
  omega

theorem scan_append_brace (attrMap : AttributeMap) (pre x : List Char) :
    ∀ skip, skip ≤ pre.length →
      replacePatterns.scan attrMap skip (pre ++ Char.ofNat 123 :: x) =
        replacePatterns.scan attrMap skip pre ++
          replacePatterns.scan attrMap 0 (Char.ofNat 123 :: x) := by
  generalize hR : replacePatterns.scan attrMap 0 (Char.ofNat 123 :: x) = R
  induction pre with
  | nil =>
    intro skip h
    have : skip = 0 := by simpa using h
    subst this
    rw [List.nil_append, hR]
    rfl
  | cons c cs ih =>
    intro skip h
    rw [List.cons_append]
    cases skip with
    | succ s =>
      simp only [replacePatterns.scan]
      exact ih s (by simpa using h)
    | zero =>
      have ht := tokenAt_append_brace c cs x
      rw [List.cons_append] at ht
      simp only [replacePatterns.scan, ht]
      cases he : tokenAt (c :: cs) with
      | none =>
        simp only
        rw [ih 0 (Nat.zero_le _), List.cons_append]
      | some entry =>
        have hl := tokenAt_length _ _ he
        simp only [List.length_cons] at hl
        simp only
        rw [ih _ (by omega), List.append_assoc]

theorem scan_skip (attrMap : AttributeMap) (a b : List Char) :
    replacePatterns.scan attrMap a.length (a ++ b) = replacePatterns.scan attrMap 0 b := by
  induction a with
  | nil => rfl
  | cons c cs ih =>
    cases b with
    | nil =>
      rw [List.cons_append]
      simp only [List.length_cons, replacePatterns.scan]
      exact ih
    | cons d ds =>
      rw [List.cons_append]
      simp only [List.length_cons, replacePatterns.scan]
      exact ih

theorem tokenAt_token (entry : String × List String) (hmem : entry ∈ patternKeyToAttributeMap)
    (post : List Char) : tokenAt (tokenChars entry.1 ++ post) = some entry := by
  simp only [patternKeyToAttributeMap, List.mem_cons, List.mem_singleton,
    List.not_mem_nil, or_false] at hmem
  rcases hmem with rfl | rfl | rfl | rfl | rfl <;> rfl

theorem scan_token (attrMap : AttributeMap) (entry : String × List String)
    (hmem : entry ∈ patternKeyToAttributeMap) (post : List Char) :
    replacePatterns.scan attrMap 0 (tokenChars entry.1 ++ post) =
      (resolvePlaceholder attrMap entry.2).toList ++ replacePatterns.scan attrMap 0 post := by
  have ht := tokenAt_token entry hmem post
  have h1 : tokenChars entry.1 ++ post =
      Char.ofNat 123 :: ((entry.1.toList ++ [Char.ofNat 125]) ++ post) := rfl
  rw [h1] at ht ⊢
  simp only [replacePatterns.scan, ht]
  have hlen : entry.1.length + 1 = (entry.1.toList ++ [Char.ofNat 125]).length := by
    rw [List.length_append]
    rfl
  rw [hlen, scan_skip]

theorem replacePatterns_append_token (attrMap : AttributeMap) (pre post : String)
    (entry : String × List String) (hmem : entry ∈ patternKeyToAttributeMap) :
    replacePatterns (pre ++ "\x7b" ++ entry.1 ++ "\x7d" ++ post) attrMap =
      replacePatterns pre attrMap ++ resolvePlaceholder attrMap entry.2 ++
        replacePatterns post attrMap := by
  have hlist : (pre ++ "\x7b" ++ entry.1 ++ "\x7d" ++ post).toList =
      pre.toList ++ Char.ofNat 123 :: ((entry.1.toList ++ [Char.ofNat 125]) ++ post.toList) := by
    simp only [String.toList, String.data_append, List.append_assoc]
    rfl
  have htok : Char.ofNat 123 :: ((entry.1.toList ++ [Char.ofNat 125]) ++ post.toList) =
      tokenChars entry.1 ++ post.toList := rfl
  simp only [replacePatterns]
  rw [hlist, scan_append_brace _ _ _ 0 (Nat.zero_le _), htok, scan_token _ _ hmem]
  apply String.ext
  simp only [String.data_append, String.toList, List.append_assoc]

theorem recognized_names (name : String) (candidates : List String)
    (h : mapGet patternKeyToAttributeMap name = some candidates) :
    (name = "ClusterName" ∨ name = "TaskId" ∨ name = "NodeName" ∨
      name = "ContainerInstanceId" ∨ name = "TaskDefinitionFamily") ∧
    ∃ canonical, candidates = [canonical, name] := by
  have hmem := mem_of_mapGet _ _ _ h
  simp only [patternKeyToAttributeMap, List.mem_cons, List.mem_singleton, List.not_mem_nil,
    or_false, Prod.mk.injEq] at hmem
  rcases hmem with ⟨rfl, rfl⟩ | ⟨rfl, rfl⟩ | ⟨rfl, rfl⟩ | ⟨rfl, rfl⟩ | ⟨rfl, rfl⟩ <;> simp

/-- C11: a token whose name is one of the five recognized placeholders is replaced, where
it stands, by the string value of the canonical attribute of the name if that attribute is
present and not null, else by the string value of the attribute called like the name if
that one is present and not null, else by `undefined`; the text before and the text after
the token are resolved on their own. -/
theorem replacePatterns_recognized (attrMap : AttributeMap) (pre post name : String)
    (hname : name ∈ ["ClusterName", "TaskId", "NodeName", "ContainerInstanceId",
      "TaskDefinitionFamily"]) :
    ∃ canonical, mapGet patternKeyToAttributeMap name = some [canonical, name] ∧
      replacePatterns (pre ++ "\x7b" ++ name ++ "\x7d" ++ post) attrMap =
        replacePatterns pre attrMap ++
          (match mapGet attrMap canonical, mapGet attrMap name with
            | some (.string value), _ => value
            | _, some (.string value) => value
            | _, _ => "undefined") ++
          replacePatterns post attrMap := by
  have hres : ∀ canonical : String, resolvePlaceholder attrMap [canonical, name] =
      (match mapGet attrMap canonical, mapGet attrMap name with
        | some (.string value), _ => value
        | _, some (.string value) => value
        | _, _ => "undefined") := by
    intro canonical
    simp only [resolvePlaceholder, firstNonNull]
    rcases mapGet attrMap canonical with _ | _ | v <;>
      rcases mapGet attrMap name with _ | _ | w <;> rfl
  have hentry : ∃ canonical, mapGet patternKeyToAttributeMap name = some [canonical, name] ∧
      (name, [canonical, name]) ∈ patternKeyToAttributeMap := by
    simp only [List.mem_cons, List.mem_singleton, List.not_mem_nil, or_false] at hname
    rcases hname with rfl | rfl | rfl | rfl | rfl
    · exact ⟨"aws.ecs.cluster.name", by decide, by decide⟩
    · exact ⟨"aws.ecs.task.id", by decide, by decide⟩
    · exact ⟨"k8s.node.name", by decide, by decide⟩
    · exact ⟨"aws.ecs.container.instance.id", by decide, by decide⟩
    · exact ⟨"aws.ecs.task.family", by decide, by decide⟩
  obtain ⟨canonical, hget, hmem⟩ := hentry
  refine ⟨canonical, hget, ?_⟩
  rw [← hres canonical]
  exact replacePatterns_append_token attrMap pre post (name, [canonical, name]) hmem

/-- Witness of C11: the token `TaskId` alone resolves to the task id attribute, and the
three cases of the tests: a valid task id, a missing attribute, a null attribute. -/
theorem replacePatterns_recognized_witness :
    (∃ canonical, mapGet patternKeyToAttributeMap "TaskId" = some [canonical, "TaskId"] ∧
      replacePatterns ("" ++ "\x7b" ++ "TaskId" ++ "\x7d" ++ "") sampleAttributes =
        replacePatterns "" sampleAttributes ++
          (match mapGet sampleAttributes canonical, mapGet sampleAttributes "TaskId" with
            | some (.string value), _ => value
            | _, some (.string value) => value
            | _, _ => "undefined") ++
          replacePatterns "" sampleAttributes) ∧
    replacePatterns "\x7bTaskId\x7d" sampleAttributes = "test-task-id" ∧
    replacePatterns "/aws/ecs/containerinsights/\x7bClusterName\x7d/performance"
        [("aws.ecs.task.id", .string "test-task-id")] =
      "/aws/ecs/containerinsights/undefined/performance" ∧
    replacePatterns "/aws/ecs/containerinsights/\x7bClusterName\x7d/performance"
        [("ClusterName", .null)] =
      "/aws/ecs/containerinsights/undefined/performance" :=
  ⟨replacePatterns_recognized sampleAttributes "" "" "TaskId" (by decide),
    by decide, by decide, by decide⟩

theorem scan_no_token (attrMap : AttributeMap) (text : List Char)
    (h : ∀ entry ∈ patternKeyToAttributeMap, ¬ tokenChars entry.1 <:+: text) :
    replacePatterns.scan attrMap 0 text = text := by
  induction text with
  | nil => rfl
  | cons c cs ih =>
    have hnone : tokenAt (c :: cs) = none := by
      simp only [tokenAt, List.find?_eq_none]
      intro entry hmem hstart
      exact h entry hmem ((startsText_iff _ _).mp hstart).isInfix
    simp only [replacePatterns.scan, hnone]
    rw [ih]
    intro entry hmem hin
    exact h entry hmem (hin.trans (List.suffix_cons c cs).isInfix)

/-- C12: a template in which no token of a recognized name occurs is returned as it is,
whatever the attributes. -/
theorem replacePatterns_unchanged (attrMap : AttributeMap) (template : String)
    (h : ∀ name candidates, mapGet patternKeyToAttributeMap name = some candidates →
      ¬ tokenChars name <:+: template.toList) :
    replacePatterns template attrMap = template := by
  have hscan : replacePatterns.scan attrMap 0 template.toList = template.toList := by
    apply scan_no_token
    intro entry hmem
    have hget : mapGet patternKeyToAttributeMap entry.1 = some entry.2 := by
      simp only [patternKeyToAttributeMap, List.mem_cons, List.mem_singleton,
        List.not_mem_nil, or_false] at hmem
      rcases hmem with rfl | rfl | rfl | rfl | rfl <;> decide
    exact h entry.1 entry.2 hget
  simp only [replacePatterns, hscan]
  rfl

/-- Witness of C12: the unknown token `WrongKey` is left in place although the attribute
`ClusterName` is present. -/
theorem replacePatterns_unchanged_witness :
    replacePatterns "/aws/ecs/containerinsights/\x7bWrongKey\x7d/performance"
        [("ClusterName", .string "test-task-id")] =
      "/aws/ecs/containerinsights/\x7bWrongKey\x7d/performance" :=
  replacePatterns_unchanged _ _ (by
    intro name candidates hget
    rcases (recognized_names name candidates hget).1 with rfl | rfl | rfl | rfl | rfl <;>
      decide)

/-! ## C13, C14: namespace and log destination -/

/-- C13: `getNamespace` returns the configured namespace when it is not empty; otherwise
the service namespace and the service name joined by a slash when the resource has both
attributes, the one it has when it has only one, and the empty string when it has
neither. -/
theorem getNamespace_cases (resourceAttributes : AttributeMap) (configNamespace : String) :
    (configNamespace ≠ "" → getNamespace resourceAttributes configNamespace = configNamespace) ∧
    (configNamespace = "" →
      (∀ serviceNamespace serviceName,
        mapGet resourceAttributes "service.namespace" = some serviceNamespace →
        mapGet resourceAttributes "service.name" = some serviceName →
        getNamespace resourceAttributes configNamespace =
          serviceNamespace.StringVal ++ "/" ++ serviceName.StringVal) ∧
      (∀ serviceNamespace,
        mapGet resourceAttributes "service.namespace" = some serviceNamespace →
        mapGet resourceAttributes "service.name" = none →
        getNamespace resourceAttributes configNamespace = serviceNamespace.StringVal) ∧
      (∀ serviceName,
        mapGet resourceAttributes "service.namespace" = none →
        mapGet resourceAttributes "service.name" = some serviceName →
        getNamespace resourceAttributes configNamespace = serviceName.StringVal) ∧
      (mapGet resourceAttributes "service.namespace" = none →
        mapGet resourceAttributes "service.name" = none →
        getNamespace resourceAttributes configNamespace = "")) := by
  refine ⟨fun h => by simp [getNamespace, h], fun h => ⟨?_, ?_, ?_, ?_⟩⟩
  · intro ns n hns hn
    simp [getNamespace, h, hns, hn]
  · intro ns hns hn
    simp [getNamespace, h, hns, hn]
  · intro n hns hn
    simp [getNamespace, h, hns, hn]
  · intro hns hn
    simp [getNamespace, h, hns, hn]

/-- Witness of C13: the cases of `TestGetNamespace` that spell out their resource: a
configured namespace, only a service name, only a service namespace. -/
theorem getNamespace_cases_witness :
    getNamespace [("service.name", .string "myServiceName")] "namespace" = "namespace" ∧
    getNamespace [("service.name", .string "myServiceName")] "" = "myServiceName" ∧
    getNamespace [("service.namespace", .string "myServiceNS")] "" = "myServiceNS" ∧
    getNamespace [("service.namespace", .string "myServiceNS"),
        ("service.name", .string "myServiceName")] "" = "myServiceNS/myServiceName" :=
  ⟨(getNamespace_cases [("service.name", .string "myServiceName")] "namespace").1 (by decide),
   ((getNamespace_cases [("service.name", .string "myServiceName")] "").2 rfl).2.2.1
      (.string "myServiceName") rfl rfl,
   ((getNamespace_cases [("service.namespace", .string "myServiceNS")] "").2 rfl).2.1
      (.string "myServiceNS") rfl rfl,
   ((getNamespace_cases [("service.namespace", .string "myServiceNS"),
      ("service.name", .string "myServiceName")] "").2 rfl).1
      (.string "myServiceNS") (.string "myServiceName") rfl rfl⟩

/-- C14: the log group of `getLogInfo` is `/metrics/` followed by the namespace when no log
group name is configured and the namespace is not empty, empty when both are empty, and the
configured name resolved by `replacePatterns` otherwise, whatever the namespace; the log
stream is empty when no log stream name is configured and the configured name resolved by
`replacePatterns` otherwise. -/
theorem getLogInfo_cases (resourceAttributes : AttributeMap) (cWNamespace : String)
    (config : Config) :
    (config.LogGroupName = "" → cWNamespace ≠ "" →
      (getLogInfo resourceAttributes cWNamespace config).1 = "/metrics/" ++ cWNamespace) ∧
    (config.LogGroupName = "" → cWNamespace = "" →
      (getLogInfo resourceAttributes cWNamespace config).1 = "") ∧
    (config.LogGroupName ≠ "" →
      (getLogInfo resourceAttributes cWNamespace config).1 =
        replacePatterns config.LogGroupName resourceAttributes) ∧
    (config.LogStreamName = "" →
      (getLogInfo resourceAttributes cWNamespace config).2 = "") ∧
    (config.LogStreamName ≠ "" →
      (getLogInfo resourceAttributes cWNamespace config).2 =
        replacePatterns config.LogStreamName resourceAttributes) := by
  refine ⟨?_, ?_, ?_, ?_, ?_⟩
  · intro h hn
    simp [getLogInfo, h, hn]
  · intro h hn
    simp [getLogInfo, h, hn]
  · intro h
    simp [getLogInfo, h]
  · intro h
    simp [getLogInfo, h]
  · intro h
    simp [getLogInfo, h]

/-- Witness of C14: cases of `TestGetLogInfo` on its first resource: no configuration with
a namespace, and a configuration with patterns without one. -/
theorem getLogInfo_cases_witness :
    (getLogInfo sampleResourceAttributes "namespace"
      { LogGroupName := "", LogStreamName := "",
        CreateEKSFargateKubernetesObject := false }).1 = "/metrics/" ++ "namespace" ∧
    (getLogInfo sampleResourceAttributes "namespace"
      { LogGroupName := "", LogStreamName := "",
        CreateEKSFargateKubernetesObject := false }).2 = "" ∧
    (getLogInfo sampleResourceAttributes ""
      { LogGroupName := "/aws/containerinsights/\x7bClusterName\x7d/performance",
        LogStreamName := "\x7bTaskDefinitionFamily\x7d-\x7bTaskId\x7d",
        CreateEKSFargateKubernetesObject := false }) =
      ("/aws/containerinsights/test-cluster-name/performance",
        "test-task-definition-family-test-task-id") :=
  ⟨(getLogInfo_cases sampleResourceAttributes "namespace"
      { LogGroupName := "", LogStreamName := "",
        CreateEKSFargateKubernetesObject := false }).1 rfl (by decide),
   (getLogInfo_cases sampleResourceAttributes "namespace"
      { LogGroupName := "", LogStreamName := "",
        CreateEKSFargateKubernetesObject := false }).2.2.2.1 rfl,
   by decide⟩

/-! ## C17: when the schema filler fails -/

theorem containsBadValue_nil : ¬ ContainsBadValue [] := by
  intro h
  cases h with
  | here k v hm _ => cases hm
  | deeper k n hm _ => cases hm

theorem containsBadValue_cons (k : String) (v : JVal) (rest : List (String × JVal)) :
    ContainsBadValue ((k, v) :: rest) ↔
      v.isStringOrMap = false ∨ (∃ n, v = .obj n ∧ ContainsBadValue n) ∨
        ContainsBadValue rest := by
  constructor
  · intro h
    cases h with
    | here k' v' hm hv =>
      rcases List.mem_cons.mp hm with heq | hm
      · cases heq
        exact Or.inl hv
      · exact Or.inr (Or.inr (ContainsBadValue.here k' v' hm hv))
    | deeper k' n hm hn =>
      rcases List.mem_cons.mp hm with heq | hm
      · cases heq
        exact Or.inr (Or.inl ⟨n, rfl, hn⟩)
      · exact Or.inr (Or.inr (ContainsBadValue.deeper k' n hm hn))
  · rintro (hv | ⟨n, rfl, hn⟩ | hr)
    · exact ContainsBadValue.here k v (List.mem_cons_self _ _) hv
    · exact ContainsBadValue.deeper k n (List.mem_cons_self _ _) hn
    · cases hr with
      | here k' v' hm hv => exact ContainsBadValue.here k' v' (List.mem_cons_of_mem _ hm) hv
      | deeper k' n hm hn =>
        exact ContainsBadValue.deeper k' n (List.mem_cons_of_mem _ hm) hn

mutual
theorem onValue_error_iff : ∀ (v : JVal) (ℓ : Labels) (schema : List (String × JVal)),
    v = .obj schema →
    ((∃ err, (recursivelyFillInMap.onValue v ℓ).2 = .error err) ↔ ContainsBadValue schema)
  | .obj schema', ℓ, schema, hv => by
    cases hv
    simp only [recursivelyFillInMap.onValue]
    have h := loop_error_iff schema' (mapSet ℓ "dummy" "got to the start") schema'
    rcases hr : recursivelyFillInMap.loop schema' (mapSet ℓ "dummy" "got to the start")
      schema' with ⟨ℓ', r⟩
    rw [hr] at h
    cases r with
    | error e => simpa using h
    | ok out => simpa using h
  | .null, _, _, hv => by cases hv
  | .bool _, _, _, hv => by cases hv
  | .num _, _, _, hv => by cases hv
  | .str _, _, _, hv => by cases hv
  | .arr _, _, _, hv => by cases hv
theorem loop_error_iff : ∀ (todo : List (String × JVal)) (ℓ : Labels)
    (schema : List (String × JVal)),
    ((∃ err, (recursivelyFillInMap.loop todo ℓ schema).2 = .error err) ↔
      ContainsBadValue todo)
  | [], ℓ, schema => by
    simp [recursivelyFillInMap.loop, containsBadValue_nil]
  | (k, .obj n) :: rest, ℓ, schema => by
    rw [containsBadValue_cons]
    simp only [recursivelyFillInMap.loop]
    have h := onValue_error_iff (.obj n) ℓ n rfl
    rcases hr : recursivelyFillInMap.onValue (.obj n) ℓ with ⟨ℓ', r⟩
    rw [hr] at h
    cases r with
    | error e =>
      have hn : ContainsBadValue n := h.mp ⟨e, rfl⟩
      simp [JVal.isStringOrMap, hn]
    | ok filled =>
      have hn : ¬ ContainsBadValue n := fun hc => by
        obtain ⟨e, he⟩ := h.mpr hc
        cases he
      simp only
      rw [loop_error_iff rest ℓ' _]
      simp [JVal.isStringOrMap, hn]
  | (k, .str s) :: rest, ℓ, schema => by
    rw [containsBadValue_cons, loop_str, loop_error_iff rest ℓ _]
    simp [JVal.isStringOrMap]
  | (k, .null) :: rest, ℓ, schema => by
    rw [containsBadValue_cons]
    simp [recursivelyFillInMap.loop, JVal.isStringOrMap]
  | (k, .bool _) :: rest, ℓ, schema => by
    rw [containsBadValue_cons]
    simp [recursivelyFillInMap.loop, JVal.isStringOrMap]
  | (k, .num _) :: rest, ℓ, schema => by
    rw [containsBadValue_cons]
    simp [recursivelyFillInMap.loop, JVal.isStringOrMap]
  | (k, .arr _) :: rest, ℓ, schema => by
    rw [containsBadValue_cons]
    simp [recursivelyFillInMap.loop, JVal.isStringOrMap]
end

theorem recursivelyFillInMap_isError_iff (labels : Labels) (schema : List (String × JVal)) :
    (∃ err, (recursivelyFillInMap labels schema).2 = .error err) ↔ ContainsBadValue schema :=
  onValue_error_iff (.obj schema) labels schema rfl

theorem containsBadValue_of_sameUpToOrder {a b : List (String × JVal)}
    (h : SameUpToOrder a b) : ContainsBadValue a ↔ ContainsBadValue b := by
  induction h with
  | perm hp =>
    constructor
    · intro h
      cases h with
      | here k v hm hv => exact ContainsBadValue.here k v (hp.mem_iff.mp hm) hv
      | deeper k n hm hn => exact ContainsBadValue.deeper k n (hp.mem_iff.mp hm) hn
    · intro h
      cases h with
      | here k v hm hv => exact ContainsBadValue.here k v (hp.mem_iff.mpr hm) hv
      | deeper k n hm hn => exact ContainsBadValue.deeper k n (hp.mem_iff.mpr hm) hn
  | @nested pre post k n n' _ ih =>
    have key : ∀ (m m' : List (String × JVal)), (ContainsBadValue m → ContainsBadValue m') →
        ContainsBadValue (pre ++ (k, JVal.obj m) :: post) →
        ContainsBadValue (pre ++ (k, JVal.obj m') :: post) := by
      intro m m' hmm h
      cases h with
      | here k₁ v hm hv =>
        refine ContainsBadValue.here k₁ v ?_ hv
        rcases List.mem_append.mp hm with hm | hm
        · exact List.mem_append_left _ hm
        · rcases List.mem_cons.mp hm with heq | hm
          · cases heq
            simp [JVal.isStringOrMap] at hv
          · exact List.mem_append_right _ (List.mem_cons_of_mem _ hm)
      | deeper k₁ x hm hx =>
        rcases List.mem_append.mp hm with hm | hm
        · exact ContainsBadValue.deeper k₁ x (List.mem_append_left _ hm) hx
        · rcases List.mem_cons.mp hm with heq | hm
          · cases heq
            exact ContainsBadValue.deeper k m'
              (List.mem_append_right _ (List.mem_cons_self _ _)) (hmm hx)
          · exact ContainsBadValue.deeper k₁ x
              (List.mem_append_right _ (List.mem_cons_of_mem _ hm)) hx
    exact ⟨key n n' ih.mp, key n' n ih.mpr⟩
  | trans _ _ ih₁ ih₂ => exact ih₁.trans ih₂

/-! ## C16: the output of the schema filler is pruned -/

theorem noKey_of_not_mem {κ α : Type} (k : κ) (l : List (κ × α))
    (h : k ∉ l.map Prod.fst) : NoKey k l := by
  intro p hp hk
  exact h (List.mem_map.mpr ⟨p, hp, hk⟩)

theorem keysDistinctEntries_mem (kvs : List (String × JVal)) (k : String) (v : JVal)
    (h : keysDistinctEntries kvs = true) (hm : (k, v) ∈ kvs) : v.keysDistinct = true := by
  induction kvs with
  | nil => cases hm
  | cons p rest ih =>
    obtain ⟨k', v'⟩ := p
    simp only [keysDistinctEntries, Bool.and_eq_true] at h
    rcases List.mem_cons.mp hm with heq | hm
    · cases heq
      exact h.1
    · exact ih h.2 hm

theorem keysDistinct_obj (kvs : List (String × JVal))
    (h : (JVal.obj kvs).keysDistinct = true) :
    (kvs.map Prod.fst).Nodup ∧
      ∀ k n, mapGet kvs k = some (.obj n) → (JVal.obj n).keysDistinct = true := by
  simp only [JVal.keysDistinct, Bool.and_eq_true, decide_eq_true_eq] at h
  exact ⟨h.1, fun k n hk => keysDistinctEntries_mem kvs k _ h.2 (mem_of_mapGet _ _ _ hk)⟩

theorem loop_shape (todo : List (String × JVal)) :
    ∀ (ℓ ℓ' : Labels) (done out : List (String × JVal)),
      (todo.map Prod.fst).Nodup → (∀ p ∈ todo, NoKey p.1 done) →
      recursivelyFillInMap.loop todo ℓ (done ++ todo) = (ℓ', .ok out) →
      ∃ outTodo, out = done ++ outTodo ∧ EntryShape todo outTodo := by
  induction todo with
  | nil =>
    intro ℓ ℓ' done out _ _ hrun
    rw [loop_nil] at hrun
    simp only [Prod.mk.injEq, Except.ok.injEq] at hrun
    refine ⟨[], hrun.2.symm, ?_⟩
    intro k v h
    simp [mapGet] at h
  | cons entry rest ih =>
    obtain ⟨k, x⟩ := entry
    intro ℓ ℓ' done out hnd hdisj hrun
    simp only [List.map_cons, List.nodup_cons] at hnd
    have hkrest : NoKey k rest := noKey_of_not_mem k rest hnd.1
    have hkdone : NoKey k done := hdisj (k, x) (List.mem_cons_self _ _)
    have hne : ∀ p ∈ rest, k ≠ p.1 := fun p hp h => hkrest p hp h.symm
    cases x with
    | str s =>
      rw [loop_str, leafUpdate_at done rest k _ _ hkdone hkrest] at hrun
      obtain ⟨outRest, hout, hshape⟩ := ih ℓ ℓ' (done ++ fieldOf k (mapGet ℓ s)) out hnd.2
        (fun p hp => noKey_append (hdisj p (List.mem_cons_of_mem _ hp))
          (noKey_fieldOf _ (hne p hp))) hrun
      refine ⟨fieldOf k (mapGet ℓ s) ++ outRest, by rw [hout, List.append_assoc], ?_⟩
      intro y v hy
      by_cases hyk : y = k
      · subst hyk
        cases ho : mapGet ℓ s with
        | none =>
          rw [ho] at hy
          simp only [fieldOf, List.nil_append] at hy
          rcases hshape y v hy with ⟨s₁, s₂, h₁, _⟩ | ⟨n, f, h₁, _⟩
          · rw [mapGet_of_noKey rest y hkrest] at h₁
            cases h₁
          · rw [mapGet_of_noKey rest y hkrest] at h₁
            cases h₁
        | some val =>
          rw [ho] at hy
          simp only [fieldOf, List.singleton_append, mapGet, if_true, Option.some.injEq] at hy
          exact Or.inl ⟨s, val, by simp [mapGet], hy.symm⟩
      · have hky : ¬ k = y := fun h => hyk h.symm
        rw [mapGet_append_skip _ _ _ (noKey_fieldOf _ hky)] at hy
        rcases hshape y v hy with ⟨s₁, s₂, h₁, h₂⟩ | ⟨n, f, h₁, h₂⟩
        · exact Or.inl ⟨s₁, s₂, by simpa [mapGet, hky] using h₁, h₂⟩
        · exact Or.inr ⟨n, f, by simpa [mapGet, hky] using h₁, h₂⟩
    | obj n =>
      rw [loop_obj] at hrun
      rcases hfill : recursivelyFillInMap ℓ n with ⟨ℓ₁, r⟩
      rw [hfill] at hrun
      cases r with
      | error e => simp at hrun
      | ok filled =>
        simp only at hrun
        rw [nestedUpdate_at done rest k _ _ hkdone hkrest] at hrun
        obtain ⟨outRest, hout, hshape⟩ := ih ℓ₁ ℓ' (done ++ objectOf k filled) out hnd.2
          (fun p hp => noKey_append (hdisj p (List.mem_cons_of_mem _ hp))
            (noKey_objectOf _ (hne p hp))) hrun
        refine ⟨objectOf k filled ++ outRest, by rw [hout, List.append_assoc], ?_⟩
        intro y v hy
        by_cases hyk : y = k
        · subst hyk
          cases filled with
          | nil =>
            simp only [objectOf, List.nil_append] at hy
            rcases hshape y v hy with ⟨s₁, s₂, h₁, _⟩ | ⟨n', f, h₁, _⟩
            · rw [mapGet_of_noKey rest y hkrest] at h₁
              cases h₁
            · rw [mapGet_of_noKey rest y hkrest] at h₁
              cases h₁
          | cons a t =>
            simp only [objectOf, List.singleton_append, mapGet, if_true,
              Option.some.injEq] at hy
            exact Or.inr ⟨n, a :: t, by simp [mapGet], hy.symm, by simp, ⟨ℓ, ℓ₁, hfill⟩⟩
        · have hky : ¬ k = y := fun h => hyk h.symm
          rw [mapGet_append_skip _ _ _ (noKey_objectOf _ hky)] at hy
          rcases hshape y v hy with ⟨s₁, s₂, h₁, h₂⟩ | ⟨n', f, h₁, h₂⟩
          · exact Or.inl ⟨s₁, s₂, by simpa [mapGet, hky] using h₁, h₂⟩
          · exact Or.inr ⟨n', f, by simpa [mapGet, hky] using h₁, h₂⟩
    | null => simp [recursivelyFillInMap.loop] at hrun
    | bool b => simp [recursivelyFillInMap.loop] at hrun
    | num t => simp [recursivelyFillInMap.loop] at hrun
    | arr xs => simp [recursivelyFillInMap.loop] at hrun

theorem filledFrom_entryShape (schema out : List (String × JVal))
    (hnd : (schema.map Prod.fst).Nodup) (hf : FilledFrom schema out) :
    EntryShape schema out := by
  obtain ⟨ℓ, ℓ', hrun⟩ := hf
  rw [recursivelyFillInMap_eq] at hrun
  rcases hloop : recursivelyFillInMap.loop schema (mapSet ℓ "dummy" "got to the start")
    schema with ⟨ℓ₁, r⟩
  rw [hloop] at hrun
  cases r with
  | error e => simp at hrun
  | ok out' =>
    simp only [Prod.mk.injEq, Except.ok.injEq] at hrun
    obtain ⟨outTodo, hout, hshape⟩ := loop_shape schema _ ℓ₁ [] out' hnd
      (fun p _ => noKey_nil p.1) (by simpa using hloop)
    rw [← hrun.2, hout]
    simpa using hshape

theorem memberAt_append (v : JVal) (p q : List String) :
    v.memberAt (p ++ q) = (v.memberAt p).bind (fun w => w.memberAt q) := by
  induction p generalizing v with
  | nil => simp [memberAt_nil]
  | cons name rest ih =>
    simp only [List.cons_append, JVal.memberAt]
    cases v.member name with
    | none => rfl
    | some w => exact ih w

theorem memberAt_str_cons (s name : String) (path : List String) :
    (JVal.str s).memberAt (name :: path) = none := by
  simp [JVal.memberAt, JVal.member]

theorem filledFrom_path (path : List String) :
    ∀ (schema out : List (String × JVal)) (w : JVal),
      (JVal.obj schema).keysDistinct = true → FilledFrom schema out → path ≠ [] →
      (JVal.obj out).memberAt path = some w →
      (∃ s v, w = .str v ∧ (JVal.obj schema).memberAt path = some (.str s)) ∨
      (∃ n filled, w = .obj filled ∧ (JVal.obj schema).memberAt path = some (.obj n) ∧
        filled ≠ [] ∧ FilledFrom n filled ∧ (JVal.obj n).keysDistinct = true) := by
  induction path with
  | nil => intro _ _ _ _ _ h; exact absurd rfl h
  | cons name rest ih =>
    intro schema out w hwf hf _ hw
    obtain ⟨hnd, hsub⟩ := keysDistinct_obj schema hwf
    rw [memberAt_cons] at hw
    cases hv : mapGet out name with
    | none => rw [hv] at hw; cases hw
    | some v =>
      rw [hv] at hw
      simp only [Option.bind] at hw
      rcases filledFrom_entryShape schema out hnd hf name v hv with
        ⟨s, s', hs, rfl⟩ | ⟨n, filled, hn, rfl, hne, hfn⟩
      · cases rest with
        | nil =>
          rw [memberAt_nil] at hw
          cases hw
          exact Or.inl ⟨s, s', rfl, by rw [memberAt_cons, hs]; rfl⟩
        | cons r rs =>
          rw [memberAt_str_cons] at hw
          cases hw
      · cases rest with
        | nil =>
          rw [memberAt_nil] at hw
          cases hw
          exact Or.inr ⟨n, filled, rfl, by rw [memberAt_cons, hn]; rfl, hne, hfn,
            hsub name n hn⟩
        | cons r rs =>
          have hrec := ih n filled w (hsub name n hn) hfn (by simp) hw
          have hpath : (JVal.obj schema).memberAt (name :: r :: rs) =
              (JVal.obj n).memberAt (r :: rs) := by
            rw [memberAt_cons, hn]
            rfl
          rw [hpath]
          exact hrec

theorem exists_kept_leaf (N : Nat) :
    ∀ (n filled : List (String × JVal)), sizeOf filled ≤ N →
      (JVal.obj n).keysDistinct = true → FilledFrom n filled → filled ≠ [] →
      ∃ q v, q ≠ [] ∧ (JVal.obj filled).memberAt q = some (.str v) := by
  induction N with
  | zero =>
    intro n filled hsize _ _ hne
    cases filled with
    | nil => exact absurd rfl hne
    | cons a t =>
      simp at hsize
  | succ N ih =>
    intro n filled hsize hwf hf hne
    cases filled with
    | nil => exact absurd rfl hne
    | cons a t =>
      obtain ⟨k, v⟩ := a
      obtain ⟨hnd, hsub⟩ := keysDistinct_obj n hwf
      have hget : mapGet ((k, v) :: t) k = some v := by simp [mapGet]
      rcases filledFrom_entryShape n _ hnd hf k v hget with
        ⟨s, s', _, rfl⟩ | ⟨n', filled', hn', rfl, hne', hfn'⟩
      · exact ⟨[k], s', by simp, by rw [memberAt_cons, hget]; rfl⟩
      · have hsmall : sizeOf filled' ≤ N := by
          simp at hsize
          omega
        obtain ⟨q, v, hq, hv⟩ := ih n' filled' hsmall (hsub k n' hn') hfn' hne'
        exact ⟨k :: q, v, by simp, by rw [memberAt_cons, hget]; exact hv⟩

/-! ## C19: key consistency, and the iteration with a configuration -/

theorem keysConsistent_mapSet (b : List (Key × GroupedMetric)) (k : Key) (g : GroupedMetric)
    (hb : KeysConsistent b)
    (hk : k = groupedMetricKey g.Metadata.GroupedMetricMetadata g.Labels) :
    KeysConsistent (mapSet b k g) := by
  intro k' g' h
  by_cases hne : k' = k
  · subst hne
    rw [mapGet_mapSet_same] at h
    cases h
    exact hk
  · rw [mapGet_mapSet_ne _ _ _ _ hne] at h
    exact hb k' g' h

theorem merge_keysConsistent (pmd : Metric) (descriptor : List (String × MetricDescriptor))
    (dp : DataPoint) (labels : Labels) (st : LoopState)
    (h : KeysConsistent st.groupedMetrics) :
    KeysConsistent (addToGroupedMetric.merge pmd descriptor dp labels st).groupedMetrics := by
  rw [merge_eq]
  simp only
  split
  · rename_i group hgroup
    split
    · exact h
    · exact keysConsistent_mapSet _ _ _ h (h _ group hgroup)
  · exact keysConsistent_mapSet _ _ _ h rfl

theorem step_keysConsistent (pmd : Metric) (descriptor : List (String × MetricDescriptor))
    (config : Option Config) (st : LoopState) (point : DataPoint × Bool)
    (h : KeysConsistent st.groupedMetrics) :
    KeysConsistent (addToGroupedMetric.step pmd descriptor config st point).1.groupedMetrics := by
  rcases step_cases pmd descriptor config st point with hs | ⟨labels, hs⟩
  · rw [hs]; exact h
  · rw [hs]; exact merge_keysConsistent pmd descriptor point.1 labels st h

theorem loop_keysConsistent (pmd : Metric) (descriptor : List (String × MetricDescriptor))
    (config : Option Config) (dps : List (DataPoint × Bool)) (st : LoopState)
    (h : KeysConsistent st.groupedMetrics) :
    KeysConsistent (addToGroupedMetric.loop pmd descriptor config dps st).1.groupedMetrics := by
  induction dps generalizing st with
  | nil => exact h
  | cons point rest ih =>
    rw [loop_cons]
    split
    · exact ih _ (step_keysConsistent pmd descriptor config st point h)
    · exact step_keysConsistent pmd descriptor config st point h

/-- C19: if every group of the buckets is bound to the key computed from its own stored
metadata and labels before a call of `addToGroupedMetric`, the same holds after the call,
whatever the metric, the metadata, the descriptor table, the configuration and the
outcome. -/
theorem addToGroupedMetric_keys_consistent (pmd : Option Metric)
    (groupedMetrics : List (Key × GroupedMetric)) (metadata : CWMetricMetadata)
    (descriptor : List (String × MetricDescriptor)) (config : Option Config)
    (h : ∀ k g, mapGet groupedMetrics k = some g →
      k = groupedMetricKey g.Metadata.GroupedMetricMetadata g.Labels) :
    ∀ k g, mapGet (addToGroupedMetric pmd groupedMetrics metadata descriptor config).1 k
        = some g →
      k = groupedMetricKey g.Metadata.GroupedMetricMetadata g.Labels := by
  cases pmd with
  | none => exact h
  | some m =>
    simp only [addToGroupedMetric]
    split
    · exact h
    · split
      · exact h
      · exact loop_keysConsistent m descriptor config _
          { groupedMetrics := groupedMetrics, metadata := metadata } h

theorem sampleBuckets_keysConsistent : KeysConsistent sampleBuckets := by
  intro k g h
  simp only [sampleBuckets, mapGet] at h
  split at h
  · rename_i hk
    cases h
    exact hk.symm
  · cases h

/-- Witness of C19: after the call that merges the sample point into the sample buckets,
the new group sits at the key of its labels and of the metadata at the point's timestamp. -/
theorem addToGroupedMetric_keys_consistent_witness :
    groupedMetricKey (withTimestamp sampleMetadata 7).GroupedMetricMetadata [("host", "b")] =
      groupedMetricKey
        ({ Labels := [("host", "b")],
           Metrics := [("mem", { Value := .intVal 9, Unit := "Bytes" })],
           Metadata := withTimestamp sampleMetadata 7 } :
          GroupedMetric).Metadata.GroupedMetricMetadata
        ({ Labels := [("host", "b")],
           Metrics := [("mem", { Value := .intVal 9, Unit := "Bytes" })],
           Metadata := withTimestamp sampleMetadata 7 } : GroupedMetric).Labels :=
  addToGroupedMetric_keys_consistent (some sampleMetricMem) sampleBuckets sampleMetadata []
    none sampleBuckets_keysConsistent _ _ (by decide)

theorem step_config_noError (pmd : Metric) (descriptor : List (String × MetricDescriptor))
    (c : Config) (st : LoopState) (point : DataPoint × Bool) :
    (addToGroupedMetric.step pmd descriptor (some c) st point).2 = .noError := by
  obtain ⟨dp, retained⟩ := point
  cases retained
  · rw [step_not_retained]
  · rw [step_retained, enrich_some]
    simp

theorem loop_config_noError (pmd : Metric) (descriptor : List (String × MetricDescriptor))
    (c : Config) (dps : List (DataPoint × Bool)) (st : LoopState) :
    (addToGroupedMetric.loop pmd descriptor (some c) dps st).2 = .noError := by
  induction dps generalizing st with
  | nil => rfl
  | cons point rest ih =>
    rw [loop_cons]
    simp only [step_config_noError, if_true]
    exact ih _

/-! ## C17: the claim -/

theorem sampleTemplate_no_bad_value : ¬ ContainsBadValue sampleTemplate := by
  intro h
  obtain ⟨err, he⟩ := (recursivelyFillInMap_isError_iff [] sampleTemplate).mpr h
  have hrun : (recursivelyFillInMap [] sampleTemplate).2 = .ok [] := rfl
  rw [hrun] at he
  cases he

/-- C17: `recursivelyFillInMap` returns an error exactly when the template contains, at some
depth, a value that is neither a string nor a nested map, whatever the label map; so it
succeeds when every leaf is a string, and two templates with the same entries in another
order at any depth both fail or both succeed. -/
theorem recursivelyFillInMap_error_iff (labels : Labels) (schema : List (String × JVal)) :
    ((∃ err, (recursivelyFillInMap labels schema).2 = .error err) ↔
      ContainsBadValue schema) ∧
    (¬ ContainsBadValue schema → ∃ out, (recursivelyFillInMap labels schema).2 = .ok out) ∧
    (∀ (labels₂ : Labels) (schema₂ : List (String × JVal)), SameUpToOrder schema schema₂ →
      ((∃ err, (recursivelyFillInMap labels₂ schema₂).2 = .error err) ↔
        (∃ err, (recursivelyFillInMap labels schema).2 = .error err))) := by
  refine ⟨recursivelyFillInMap_isError_iff labels schema, ?_, ?_⟩
  · intro hbad
    cases hr : (recursivelyFillInMap labels schema).2 with
    | error e => exact absurd ((recursivelyFillInMap_isError_iff labels schema).mp ⟨e, hr⟩) hbad
    | ok out => exact ⟨out, rfl⟩
  · intro labels₂ schema₂ hsame
    rw [recursivelyFillInMap_isError_iff, recursivelyFillInMap_isError_iff]
    exact (containsBadValue_of_sameUpToOrder hsame).symm

/-- Witness of C17: the sample template with a number fails, in either order of its two
entries, and the sample template, whose leaves are strings, succeeds. -/
theorem recursivelyFillInMap_error_iff_witness :
    (∃ err, (recursivelyFillInMap [] sampleBadTemplate).2 = .error err) ∧
    (∃ out, (recursivelyFillInMap [] sampleTemplate).2 = .ok out) ∧
    ((∃ err, (recursivelyFillInMap [("y", "1")]
        [("c", .str "y"), ("a", .obj [("b", .num "1")])]).2 = .error err) ↔
      (∃ err, (recursivelyFillInMap [] sampleBadTemplate).2 = .error err)) :=
  ⟨(recursivelyFillInMap_error_iff [] sampleBadTemplate).1.mpr
      (ContainsBadValue.deeper "a" [("b", .num "1")] (by simp [sampleBadTemplate])
        (ContainsBadValue.here "b" (.num "1") (by simp) rfl)),
   (recursivelyFillInMap_error_iff [] sampleTemplate).2.1 sampleTemplate_no_bad_value,
   (recursivelyFillInMap_error_iff [] sampleBadTemplate).2.2 [("y", "1")]
      [("c", .str "y"), ("a", .obj [("b", .num "1")])]
      (SameUpToOrder.perm (List.Perm.swap _ _ _))⟩

/-! ## C20: no error with a configuration -/

/-- C20: with a configuration, `addToGroupedMetric` returns no error, whatever the metric,
the buckets, the metadata and the descriptor table: `addKubernetesWrapper` returns no error
on any label map, its schema holding strings and nested maps only. -/
theorem addToGroupedMetric_config_noError (pmd : Option Metric)
    (groupedMetrics : List (Key × GroupedMetric)) (metadata : CWMetricMetadata)
    (descriptor : List (String × MetricDescriptor)) (c : Config) :
    (addToGroupedMetric pmd groupedMetrics metadata descriptor (some c)).2 = .noError ∧
    (∀ labels : Labels, (addKubernetesWrapper labels).2 = none) ∧
    ¬ ContainsBadValue kubernetesSchema := by
  refine ⟨?_, fun labels => by rw [addKubernetesWrapper_eq], ?_⟩
  · cases pmd with
    | none => rfl
    | some m =>
      simp only [addToGroupedMetric]
      split
      · rfl
      · split
        · rfl
        · exact loop_config_noError m descriptor c _ _
  · intro h
    obtain ⟨err, he⟩ := (recursivelyFillInMap_isError_iff [] kubernetesSchema).mpr h
    rw [recursivelyFillInMap_kubernetesSchema] at he
    cases he

/-! ## C15, C18: the label `dummy` that the schema filler writes -/

theorem addKubernetesWrapper_frame (labels : Labels) (k : String) :
    mapGet (addKubernetesWrapper labels).1 "dummy" = some "got to the end" ∧
    (k ≠ "kubernetes" → k ≠ "dummy" →
      mapGet (addKubernetesWrapper labels).1 k = mapGet labels k) := by
  rw [addKubernetesWrapper_eq]
  constructor
  · rw [mapGet_mapSet_ne _ _ _ _ (by decide), mapGet_mapSet_same]
  · intro hk hd
    rw [mapGet_mapSet_ne _ _ _ _ hk, mapGet_mapSet_ne _ _ _ _ hd]

/-- C18, evaluated at a label map without the key `dummy`: the call succeeds and leaves
the map with the key `dummy` added, next to `kubernetes`. -/
theorem addKubernetesWrapper_adds_dummy :
    mapGet ([("Type", "Pod")] : Labels) "dummy" = none ∧
    addKubernetesWrapper [("Type", "Pod")] =
      ([("Type", "Pod"), ("dummy", "got to the end"), ("kubernetes", "\x7b\x7d")], none) ∧
    mapGet (addKubernetesWrapper [("Type", "Pod")]).1 "dummy" = some "got to the end" := by
  decide

/-- C15, evaluated at an empty label map and a template whose leaf looks up `dummy`: the
leaf is kept, with the text the function itself stored under `dummy`. -/
theorem recursivelyFillInMap_keeps_dummy_leaf :
    mapGet ([] : Labels) "dummy" = none ∧
    recursivelyFillInMap [] [("a", .str "dummy")] =
      ([("dummy", "got to the end")], .ok [("a", .str "got to the start")]) ∧
    recursivelyFillInMap [("dummy", "mine")] [("a", .str "dummy")] =
      ([("dummy", "got to the end")], .ok [("a", .str "got to the start")]) :=
  ⟨rfl, rfl, rfl⟩

/-! ## Leaves that do not look `dummy` up -/

mutual
theorem onValue_labels : ∀ (v : JVal) (ℓ : Labels) (x : String), x ≠ "dummy" →
    mapGet (recursivelyFillInMap.onValue v ℓ).1 x = mapGet ℓ x
  | .obj schema, ℓ, x, hx => by
    simp only [recursivelyFillInMap.onValue]
    have h := loop_labels schema (mapSet ℓ "dummy" "got to the start") schema x hx
    rcases hr : recursivelyFillInMap.loop schema (mapSet ℓ "dummy" "got to the start")
      schema with ⟨ℓ', r⟩
    rw [hr] at h
    cases r with
    | error e => simpa [mapGet_dummy _ _ _ hx] using h
    | ok out => simpa [mapGet_dummy _ _ _ hx] using h
  | .null, ℓ, x, hx => by simp [recursivelyFillInMap.onValue]
  | .bool _, ℓ, x, hx => by simp [recursivelyFillInMap.onValue]
  | .num _, ℓ, x, hx => by simp [recursivelyFillInMap.onValue]
  | .str _, ℓ, x, hx => by simp [recursivelyFillInMap.onValue]
  | .arr _, ℓ, x, hx => by simp [recursivelyFillInMap.onValue]
theorem loop_labels : ∀ (todo : List (String × JVal)) (ℓ : Labels)
    (schema : List (String × JVal)) (x : String), x ≠ "dummy" →
    mapGet (recursivelyFillInMap.loop todo ℓ schema).1 x = mapGet ℓ x
  | [], ℓ, schema, x, hx => by simp [recursivelyFillInMap.loop]
  | (k, .obj n) :: rest, ℓ, schema, x, hx => by
    simp only [recursivelyFillInMap.loop]
    have h := onValue_labels (.obj n) ℓ x hx
    rcases hr : recursivelyFillInMap.onValue (.obj n) ℓ with ⟨ℓ', r⟩
    rw [hr] at h
    cases r with
    | error e => simpa using h
    | ok filled =>
      simp only
      rw [loop_labels rest ℓ' _ x hx]
      exact h
  | (k, .str s) :: rest, ℓ, schema, x, hx => by
    rw [loop_str]
    exact loop_labels rest ℓ _ x hx
  | (k, .null) :: rest, ℓ, schema, x, hx => by simp [recursivelyFillInMap.loop]
  | (k, .bool _) :: rest, ℓ, schema, x, hx => by simp [recursivelyFillInMap.loop]
  | (k, .num _) :: rest, ℓ, schema, x, hx => by simp [recursivelyFillInMap.loop]
  | (k, .arr _) :: rest, ℓ, schema, x, hx => by simp [recursivelyFillInMap.loop]
end

theorem recursivelyFillInMap_agree (ℓ : Labels) (schema : List (String × JVal)) :
    AgreeOffDummy (recursivelyFillInMap ℓ schema).1 ℓ :=
  fun x hx => onValue_labels (.obj schema) ℓ x hx

theorem mapGet_none_of_entryShape (rest outRest : List (String × JVal)) (k : String)
    (hshape : EntryShape rest outRest) (hk : NoKey k rest) : mapGet outRest k = none := by
  cases h : mapGet outRest k with
  | none => rfl
  | some v =>
    rcases hshape k v h with ⟨s₁, s₂, h₁, _⟩ | ⟨n, f, h₁, _⟩
    · rw [mapGet_of_noKey rest k hk] at h₁
      cases h₁
    · rw [mapGet_of_noKey rest k hk] at h₁
      cases h₁

theorem loop_leafShape (todo : List (String × JVal)) :
    ∀ (ℓ ℓ' : Labels) (done out : List (String × JVal)),
      (todo.map Prod.fst).Nodup → (∀ p ∈ todo, NoKey p.1 done) →
      recursivelyFillInMap.loop todo ℓ (done ++ todo) = (ℓ', .ok out) →
      ∃ outTodo, out = done ++ outTodo ∧ EntryShape todo outTodo ∧
        LeafShape ℓ todo outTodo := by
  induction todo with
  | nil =>
    intro ℓ ℓ' done out hnd hdisj hrun
    obtain ⟨outTodo, hout, hshape⟩ := loop_shape [] ℓ ℓ' done out hnd hdisj hrun
    refine ⟨outTodo, hout, hshape, ?_⟩
    intro k
    constructor
    · intro s hs
      simp [mapGet] at hs
    · intro n hn
      simp [mapGet] at hn
  | cons entry rest ih =>
    obtain ⟨k, x⟩ := entry
    intro ℓ ℓ' done out hnd hdisj hrun
    obtain ⟨outAll, houtAll, hshapeAll⟩ := loop_shape _ ℓ ℓ' done out hnd hdisj hrun
    simp only [List.map_cons, List.nodup_cons] at hnd
    have hkrest : NoKey k rest := noKey_of_not_mem k rest hnd.1
    have hkdone : NoKey k done := hdisj (k, x) (List.mem_cons_self _ _)
    have hne : ∀ p ∈ rest, k ≠ p.1 := fun p hp h => hkrest p hp h.symm
    cases x with
    | str s =>
      rw [loop_str, leafUpdate_at done rest k _ _ hkdone hkrest] at hrun
      obtain ⟨outRest, hout, hshape, hleaf⟩ := ih ℓ ℓ'
        (done ++ fieldOf k (mapGet ℓ s)) out hnd.2
        (fun p hp => noKey_append (hdisj p (List.mem_cons_of_mem _ hp))
          (noKey_fieldOf _ (hne p hp))) hrun
      have hnone := mapGet_none_of_entryShape rest outRest k hshape hkrest
      have hall : outAll = fieldOf k (mapGet ℓ s) ++ outRest := by
        rw [houtAll, List.append_assoc] at hout
        exact List.append_cancel_left hout
      refine ⟨outAll, houtAll, hshapeAll, ?_⟩
      rw [hall]
      intro y
      by_cases hyk : y = k
      · subst hyk
        constructor
        · intro s' hs' hd
          simp only [mapGet, if_true, Option.some.injEq, JVal.str.injEq] at hs'
          subst hs'
          cases ho : mapGet ℓ s with
          | none => simpa [fieldOf] using hnone
          | some val => simp [fieldOf, mapGet]
        · intro n hn
          simp [mapGet] at hn
      · have hky : ¬ k = y := fun h => hyk h.symm
        rw [mapGet_append_skip _ _ _ (noKey_fieldOf _ hky)]
        simp only [mapGet, hky, if_false]
        exact hleaf y
    | obj n =>
      rw [loop_obj] at hrun
      rcases hfill : recursivelyFillInMap ℓ n with ⟨ℓ₁, r⟩
      rw [hfill] at hrun
      have hagree : AgreeOffDummy ℓ₁ ℓ := by
        have := recursivelyFillInMap_agree ℓ n
        rw [hfill] at this
        exact this
      cases r with
      | error e => simp at hrun
      | ok filled =>
        simp only at hrun
        rw [nestedUpdate_at done rest k _ _ hkdone hkrest] at hrun
        obtain ⟨outRest, hout, hshape, hleaf⟩ := ih ℓ₁ ℓ' (done ++ objectOf k filled) out
          hnd.2
          (fun p hp => noKey_append (hdisj p (List.mem_cons_of_mem _ hp))
            (noKey_objectOf _ (hne p hp))) hrun
        have hnone := mapGet_none_of_entryShape rest outRest k hshape hkrest
        have hall : outAll = objectOf k filled ++ outRest := by
          rw [houtAll, List.append_assoc] at hout
          exact List.append_cancel_left hout
        refine ⟨outAll, houtAll, hshapeAll, ?_⟩
        rw [hall]
        intro y
        by_cases hyk : y = k
        · subst hyk
          constructor
          · intro s hs
            simp [mapGet] at hs
          · intro n' hn'
            simp only [mapGet, if_true, Option.some.injEq, JVal.obj.injEq] at hn'
            subst hn'
            refine ⟨ℓ, ℓ₁, filled, fun _ _ => rfl, hfill, ?_⟩
            cases filled with
            | nil => simpa [objectOf, mapGet] using hnone
            | cons a t => simp [objectOf, mapGet]
        · have hky : ¬ k = y := fun h => hyk h.symm
          rw [mapGet_append_skip _ _ _ (noKey_objectOf _ hky)]
          simp only [mapGet, hky, if_false]
          obtain ⟨h₁, h₂⟩ := hleaf y
          constructor
          · intro s hs hd
            rw [h₁ s hs hd, hagree s hd]
          · intro n' hn'
            obtain ⟨ℓn, ℓn', f, ha, hf, hg⟩ := h₂ n' hn'
            exact ⟨ℓn, ℓn', f, fun z hz => (ha z hz).trans (hagree z hz), hf, hg⟩
    | null => simp [recursivelyFillInMap.loop] at hrun
    | bool b => simp [recursivelyFillInMap.loop] at hrun
    | num t => simp [recursivelyFillInMap.loop] at hrun
    | arr xs => simp [recursivelyFillInMap.loop] at hrun

theorem recursivelyFillInMap_leafShape (ℓ ℓ' : Labels) (schema out : List (String × JVal))
    (hnd : (schema.map Prod.fst).Nodup)
    (hrun : recursivelyFillInMap ℓ schema = (ℓ', .ok out)) : LeafShape ℓ schema out := by
  rw [recursivelyFillInMap_eq] at hrun
  rcases hloop : recursivelyFillInMap.loop schema (mapSet ℓ "dummy" "got to the start")
    schema with ⟨ℓ₁, r⟩
  rw [hloop] at hrun
  cases r with
  | error e => simp at hrun
  | ok out' =>
    simp only [Prod.mk.injEq, Except.ok.injEq] at hrun
    obtain ⟨outTodo, hout, _, hleaf⟩ := loop_leafShape schema _ ℓ₁ [] out' hnd
      (fun p _ => noKey_nil p.1) (by simpa using hloop)
    rw [List.nil_append] at hout
    rw [← hrun.2, hout]
    intro k
    obtain ⟨h₁, h₂⟩ := hleaf k
    constructor
    · intro s hs hd
      rw [h₁ s hs hd, mapGet_dummy _ _ _ hd]
    · intro n hn
      obtain ⟨ℓn, ℓn', f, ha, hf, hg⟩ := h₂ n hn
      exact ⟨ℓn, ℓn', f, fun z hz => (ha z hz).trans (mapGet_dummy _ _ _ hz), hf, hg⟩

theorem memberAt_obj_nil_cons (name : String) (path : List String) :
    (JVal.obj []).memberAt (name :: path) = none := by
  simp [JVal.memberAt, JVal.member, mapGet]

/-- A string leaf of the template whose lookup key is not `dummy` holds, in the filled
template, the value the labels passed in have under that key, and is absent when they
have none. -/
theorem leaf_at_path (path : List String) :
    ∀ (schema out : List (String × JVal)) (ℓ ℓ' : Labels) (s : String),
      (JVal.obj schema).keysDistinct = true →
      recursivelyFillInMap ℓ schema = (ℓ', .ok out) →
      (JVal.obj schema).memberAt path = some (.str s) → s ≠ "dummy" →
      (JVal.obj out).memberAt path = (mapGet ℓ s).map JVal.str := by
  induction path with
  | nil =>
    intro schema out ℓ ℓ' s _ _ hs _
    rw [memberAt_nil] at hs
    cases hs
  | cons k rest ih =>
    intro schema out ℓ ℓ' s hkd hrun hs hd
    obtain ⟨hnd, hsub⟩ := keysDistinct_obj schema hkd
    obtain ⟨h₁, h₂⟩ := recursivelyFillInMap_leafShape ℓ ℓ' schema out hnd hrun k
    rw [memberAt_cons] at hs
    rw [memberAt_cons]
    cases hv : mapGet schema k with
    | none => simp [hv] at hs
    | some v =>
      rw [hv, Option.some_bind] at hs
      cases v with
      | str s₀ =>
        cases rest with
        | nil =>
          rw [memberAt_nil] at hs
          cases hs
          rw [h₁ s hv hd]
          cases mapGet ℓ s <;> simp [memberAt_nil]
        | cons a t =>
          rw [memberAt_str_cons] at hs
          cases hs
      | obj n =>
        obtain ⟨ℓn, ℓn', filled, hagree, hfill, hget⟩ := h₂ n hv
        have hrec := ih n filled ℓn ℓn' s (hsub k n hv) hfill hs hd
        rw [hagree s hd] at hrec
        rw [hget, mapGet_objectOf_same]
        cases rest with
        | nil =>
          rw [memberAt_nil] at hs
          cases hs
        | cons a t =>
          cases filled with
          | nil =>
            rw [memberAt_obj_nil_cons] at hrec
            rw [← hrec]
            rfl
          | cons e es => exact hrec
      | null => cases rest <;> simp [JVal.memberAt, JVal.member] at hs
      | bool b => cases rest <;> simp [JVal.memberAt, JVal.member] at hs
      | num t => cases rest <;> simp [JVal.memberAt, JVal.member] at hs
      | arr xs => cases rest <;> simp [JVal.memberAt, JVal.member] at hs

/-! ## C16: the claim -/

theorem recursivelyFillInMap_dummy (ℓ ℓ' : Labels) (schema out : List (String × JVal))
    (hrun : recursivelyFillInMap ℓ schema = (ℓ', .ok out)) :
    mapGet ℓ' "dummy" = some "got to the end" := by
  rw [recursivelyFillInMap_eq] at hrun
  rcases hloop : recursivelyFillInMap.loop schema (mapSet ℓ "dummy" "got to the start")
    schema with ⟨ℓ₁, r⟩
  rw [hloop] at hrun
  cases r with
  | error e => simp at hrun
  | ok out' =>
    simp only [Prod.mk.injEq, Except.ok.injEq] at hrun
    rw [← hrun.1, mapGet_mapSet_same]

theorem lookup_of_agree (ℓ₁ ℓ : Labels) (s : String) (hagree : AgreeOffDummy ℓ₁ ℓ)
    (h₁ : (mapGet ℓ₁ "dummy").isSome = true) (h : (mapGet ℓ "dummy").isSome = true) :
    (mapGet ℓ₁ s).isSome = (mapGet ℓ s).isSome := by
  by_cases hs : s = "dummy"
  · rw [hs, h₁, h]
  · rw [hagree s hs]

theorem loop_leafKept (todo : List (String × JVal)) :
    ∀ (ℓ ℓ' : Labels) (done out : List (String × JVal)),
      (todo.map Prod.fst).Nodup → (∀ p ∈ todo, NoKey p.1 done) →
      (mapGet ℓ "dummy").isSome = true →
      recursivelyFillInMap.loop todo ℓ (done ++ todo) = (ℓ', .ok out) →
      ∃ outTodo, out = done ++ outTodo ∧
        ∀ k s, mapGet todo k = some (.str s) →
          (mapGet outTodo k).isSome = (mapGet ℓ s).isSome := by
  induction todo with
  | nil =>
    intro ℓ ℓ' done out hnd hdisj _ hrun
    obtain ⟨outTodo, hout, _⟩ := loop_shape [] ℓ ℓ' done out hnd hdisj hrun
    refine ⟨outTodo, hout, ?_⟩
    intro k s hs
    simp [mapGet] at hs
  | cons entry rest ih =>
    obtain ⟨k, x⟩ := entry
    intro ℓ ℓ' done out hnd hdisj hdummy hrun
    obtain ⟨outAll, houtAll, _⟩ := loop_shape _ ℓ ℓ' done out hnd hdisj hrun
    simp only [List.map_cons, List.nodup_cons] at hnd
    have hkrest : NoKey k rest := noKey_of_not_mem k rest hnd.1
    have hkdone : NoKey k done := hdisj (k, x) (List.mem_cons_self _ _)
    have hne : ∀ p ∈ rest, k ≠ p.1 := fun p hp h => hkrest p hp h.symm
    cases x with
    | str s =>
      rw [loop_str, leafUpdate_at done rest k _ _ hkdone hkrest] at hrun
      have hdisj' : ∀ p ∈ rest, NoKey p.1 (done ++ fieldOf k (mapGet ℓ s)) :=
        fun p hp => noKey_append (hdisj p (List.mem_cons_of_mem _ hp))
          (noKey_fieldOf _ (hne p hp))
      obtain ⟨outRest, hout, hkept⟩ := ih ℓ ℓ' _ out hnd.2 hdisj' hdummy hrun
      obtain ⟨outRest', hout', hshape⟩ := loop_shape rest ℓ ℓ' _ out hnd.2 hdisj' hrun
      have hsame : outRest' = outRest := List.append_cancel_left (hout'.symm.trans hout)
      rw [hsame] at hshape
      have hnone := mapGet_none_of_entryShape rest outRest k hshape hkrest
      have hall : outAll = fieldOf k (mapGet ℓ s) ++ outRest := by
        rw [houtAll, List.append_assoc] at hout
        exact List.append_cancel_left hout
      refine ⟨outAll, houtAll, ?_⟩
      rw [hall]
      intro y s' hs'
      by_cases hyk : y = k
      · subst hyk
        simp only [mapGet, if_true, Option.some.injEq, JVal.str.injEq] at hs'
        subst hs'
        cases ho : mapGet ℓ s with
        | none => simp [fieldOf, hnone]
        | some val => simp [fieldOf, mapGet]
      · have hky : ¬ k = y := fun h => hyk h.symm
        rw [mapGet_append_skip _ _ _ (noKey_fieldOf _ hky)]
        simp only [mapGet, hky, if_false] at hs'
        exact hkept y s' hs'
    | obj n =>
      rw [loop_obj] at hrun
      rcases hfill : recursivelyFillInMap ℓ n with ⟨ℓ₁, r⟩
      rw [hfill] at hrun
      have hagree : AgreeOffDummy ℓ₁ ℓ := by
        have := recursivelyFillInMap_agree ℓ n
        rw [hfill] at this
        exact this
      cases r with
      | error e => simp at hrun
      | ok filled =>
        simp only at hrun
        rw [nestedUpdate_at done rest k _ _ hkdone hkrest] at hrun
        have hdummy₁ : (mapGet ℓ₁ "dummy").isSome = true := by
          rw [recursivelyFillInMap_dummy ℓ ℓ₁ n filled hfill]
          rfl
        have hdisj' : ∀ p ∈ rest, NoKey p.1 (done ++ objectOf k filled) :=
          fun p hp => noKey_append (hdisj p (List.mem_cons_of_mem _ hp))
            (noKey_objectOf _ (hne p hp))
        obtain ⟨outRest, hout, hkept⟩ := ih ℓ₁ ℓ' _ out hnd.2 hdisj' hdummy₁ hrun
        have hall : outAll = objectOf k filled ++ outRest := by
          rw [houtAll, List.append_assoc] at hout
          exact List.append_cancel_left hout
        refine ⟨outAll, houtAll, ?_⟩
        rw [hall]
        intro y s' hs'
        by_cases hyk : y = k
        · subst hyk
          simp [mapGet] at hs'
        · have hky : ¬ k = y := fun h => hyk h.symm
          rw [mapGet_append_skip _ _ _ (noKey_objectOf _ hky)]
          simp only [mapGet, hky, if_false] at hs'
          rw [hkept y s' hs']
          exact lookup_of_agree ℓ₁ ℓ s' hagree hdummy₁ hdummy
    | null => simp [recursivelyFillInMap.loop] at hrun
    | bool b => simp [recursivelyFillInMap.loop] at hrun
    | num t => simp [recursivelyFillInMap.loop] at hrun
    | arr xs => simp [recursivelyFillInMap.loop] at hrun

theorem recursivelyFillInMap_leafKept (ℓ ℓ' : Labels) (schema out : List (String × JVal))
    (hnd : (schema.map Prod.fst).Nodup)
    (hrun : recursivelyFillInMap ℓ schema = (ℓ', .ok out)) (k s : String)
    (hs : mapGet schema k = some (.str s)) :
    ((mapGet out k).isSome = true ↔ s = "dummy" ∨ (mapGet ℓ s).isSome = true) := by
  rw [recursivelyFillInMap_eq] at hrun
  rcases hloop : recursivelyFillInMap.loop schema (mapSet ℓ "dummy" "got to the start")
    schema with ⟨ℓ₁, r⟩
  rw [hloop] at hrun
  cases r with
  | error e => simp at hrun
  | ok out' =>
    simp only [Prod.mk.injEq, Except.ok.injEq] at hrun
    obtain ⟨outTodo, hout, hkept⟩ := loop_leafKept schema _ ℓ₁ [] out' hnd
      (fun p _ => noKey_nil p.1)
      (by rw [mapGet_mapSet_same ℓ "dummy" "got to the start"]; rfl) (by simpa using hloop)
    rw [List.nil_append] at hout
    rw [← hrun.2, hout, hkept k s hs]
    by_cases hd : s = "dummy"
    · rw [hd, mapGet_mapSet_same]
      simp
    · rw [mapGet_dummy _ _ _ hd]
      simp [hd]

theorem leaf_kept_at_path (path : List String) :
    ∀ (schema out : List (String × JVal)) (ℓ ℓ' : Labels) (s : String),
      (JVal.obj schema).keysDistinct = true →
      recursivelyFillInMap ℓ schema = (ℓ', .ok out) →
      (JVal.obj schema).memberAt path = some (.str s) →
      (((JVal.obj out).memberAt path).isSome = true ↔
        s = "dummy" ∨ (mapGet ℓ s).isSome = true) := by
  induction path with
  | nil =>
    intro schema out ℓ ℓ' s _ _ hs
    rw [memberAt_nil] at hs
    cases hs
  | cons k rest ih =>
    intro schema out ℓ ℓ' s hkd hrun hs
    obtain ⟨hnd, hsub⟩ := keysDistinct_obj schema hkd
    obtain ⟨_, h₂⟩ := recursivelyFillInMap_leafShape ℓ ℓ' schema out hnd hrun k
    rw [memberAt_cons] at hs
    rw [memberAt_cons]
    cases hv : mapGet schema k with
    | none => simp [hv] at hs
    | some v =>
      rw [hv, Option.some_bind] at hs
      cases v with
      | str s₀ =>
        cases rest with
        | nil =>
          rw [memberAt_nil] at hs
          cases hs
          rw [← recursivelyFillInMap_leafKept ℓ ℓ' schema out hnd hrun k s hv]
          cases mapGet out k <;> simp [memberAt_nil]
        | cons a t =>
          rw [memberAt_str_cons] at hs
          cases hs
      | obj n =>
        obtain ⟨ℓn, ℓn', filled, hagree, hfill, hget⟩ := h₂ n hv
        have hrec := ih n filled ℓn ℓn' s (hsub k n hv) hfill hs
        rw [hget, mapGet_objectOf_same]
        have hlab : (s = "dummy" ∨ (mapGet ℓn s).isSome = true) ↔
            (s = "dummy" ∨ (mapGet ℓ s).isSome = true) := by
          by_cases hd : s = "dummy"
          · simp [hd]
          · rw [hagree s hd]
        rw [← hlab, ← hrec]
        cases rest with
        | nil =>
          rw [memberAt_nil] at hs
          cases hs
        | cons a t =>
          cases filled with
          | nil => simp [memberAt_obj_nil_cons]
          | cons e es => simp
      | null => cases rest <;> simp [JVal.memberAt, JVal.member] at hs
      | bool b => cases rest <;> simp [JVal.memberAt, JVal.member] at hs
      | num t => cases rest <;> simp [JVal.memberAt, JVal.member] at hs
      | arr xs => cases rest <;> simp [JVal.memberAt, JVal.member] at hs

/-- C16: when `recursivelyFillInMap` succeeds on a template that is a well-formed map tree,
its output is fully pruned. No map below the root of the output is empty. A string leaf of
the template is in the output exactly when its lookup succeeds, that is when its lookup key
is a key of the labels passed in or is `dummy`, the key the function itself writes before
it looks anything up. A nested map of the template is in the output, at its path, exactly
when the lookup of some string leaf beneath it succeeds, and then it is there as a map;
equivalently, exactly when the output holds a value at the path of some string leaf of the
template beneath it. -/
theorem recursivelyFillInMap_pruned (labels labels' : Labels)
    (schema out : List (String × JVal))
    (hwf : (JVal.obj schema).keysDistinct = true)
    (hrun : recursivelyFillInMap labels schema = (labels', .ok out)) :
    (∀ path m, path ≠ [] → (JVal.obj out).memberAt path = some (.obj m) → m ≠ []) ∧
    (∀ path s, (JVal.obj schema).memberAt path = some (.str s) →
      (((JVal.obj out).memberAt path).isSome = true ↔
        s = "dummy" ∨ (mapGet labels s).isSome = true)) ∧
    (∀ path n, path ≠ [] → (JVal.obj schema).memberAt path = some (.obj n) →
      (((JVal.obj out).memberAt path).isSome = true ↔
        ∃ q s, (JVal.obj schema).memberAt (path ++ q) = some (.str s) ∧
          (s = "dummy" ∨ (mapGet labels s).isSome = true))) ∧
    (∀ path n w, path ≠ [] → (JVal.obj schema).memberAt path = some (.obj n) →
      (JVal.obj out).memberAt path = some w → ∃ m, w = .obj m ∧ m ≠ []) ∧
    (∀ path n, path ≠ [] → (JVal.obj schema).memberAt path = some (.obj n) →
      (((JVal.obj out).memberAt path).isSome = true ↔
        ∃ q s, (JVal.obj schema).memberAt (path ++ q) = some (.str s) ∧
          ((JVal.obj out).memberAt (path ++ q)).isSome = true)) := by
  have hf : FilledFrom schema out := ⟨labels, labels', hrun⟩
  have hleaf := fun path s => leaf_kept_at_path path schema out labels labels' s hwf hrun
  have hback : ∀ (path q : List String),
      ((JVal.obj out).memberAt (path ++ q)).isSome = true →
      ((JVal.obj out).memberAt path).isSome = true := by
    intro path q hsome
    rw [memberAt_append] at hsome
    cases hpath : (JVal.obj out).memberAt path with
    | none => rw [hpath] at hsome; simp at hsome
    | some w => rfl
  have hdown : ∀ path n, path ≠ [] → (JVal.obj schema).memberAt path = some (.obj n) →
      ((JVal.obj out).memberAt path).isSome = true →
      ∃ q s, (JVal.obj schema).memberAt (path ++ q) = some (.str s) ∧
        ((JVal.obj out).memberAt (path ++ q)).isSome = true := by
    intro path n hp hn hsome
    obtain ⟨w, hw⟩ := Option.isSome_iff_exists.mp hsome
    rcases filledFrom_path path schema out w hwf hf hp hw with
      ⟨s, v, _, hs⟩ | ⟨n', filled, rfl, _, hne, hfn, hwfn⟩
    · rw [hs] at hn
      cases hn
    · obtain ⟨q, v, hq, hv⟩ := exists_kept_leaf _ n' filled (le_refl _) hwfn hfn hne
      have hout : (JVal.obj out).memberAt (path ++ q) = some (.str v) := by
        rw [memberAt_append, hw]
        exact hv
      rcases filledFrom_path (path ++ q) schema out _ hwf hf (by simp [hp]) hout with
        ⟨s, v', _, hs⟩ | ⟨n'', filled', hv', _⟩
      · exact ⟨q, s, hs, by rw [hout]; rfl⟩
      · cases hv'
  refine ⟨?_, hleaf, ?_, ?_, ?_⟩
  · intro path m hp hm
    rcases filledFrom_path path schema out _ hwf hf hp hm with
      ⟨s, v, hv, _⟩ | ⟨n, filled, hv, _, hne, _⟩
    · cases hv
    · cases hv
      exact hne
  · intro path n hp hn
    constructor
    · intro hsome
      obtain ⟨q, s, hs, hq⟩ := hdown path n hp hn hsome
      exact ⟨q, s, hs, (hleaf _ s hs).mp hq⟩
    · rintro ⟨q, s, hs, hkept⟩
      exact hback path q ((hleaf _ s hs).mpr hkept)
  · intro path n w hp hn hw
    rcases filledFrom_path path schema out w hwf hf hp hw with
      ⟨s, v, _, hs⟩ | ⟨n', filled, rfl, _, hne, _⟩
    · rw [hs] at hn
      cases hn
    · exact ⟨filled, rfl, hne⟩
  · intro path n hp hn
    constructor
    · exact hdown path n hp hn
    · rintro ⟨q, s, _, hsome⟩
      exact hback path q hsome

/-- Witness of C16 on the sample template. With the label `x` only, the nested map `a` is
in the output, as a map that is not empty, because the lookup of its leaf `b` succeeds,
and the leaf `c`, whose label is missing, is gone. With the label `y` only, no lookup
beneath `a` succeeds and `a` is gone. -/
theorem recursivelyFillInMap_pruned_witness :
    ((((JVal.obj [("a", .obj [("b", .str "1")])]).memberAt ["a"]).isSome = true ↔
      ∃ q s, (JVal.obj sampleTemplate).memberAt (["a"] ++ q) = some (.str s) ∧
        (s = "dummy" ∨ (mapGet ([("x", "1")] : Labels) s).isSome = true)) ∧
    (∃ m, JVal.obj [("b", .str "1")] = .obj m ∧ m ≠ []) ∧
    ((((JVal.obj [("a", .obj [("b", .str "1")])]).memberAt ["c"]).isSome = true ↔
      "y" = "dummy" ∨ (mapGet ([("x", "1")] : Labels) "y").isSome = true)) ∧
    ((JVal.obj [("c", .str "2")]).memberAt ["a"]).isSome = false) ∧
    ¬ ∃ q s, (JVal.obj sampleTemplate).memberAt (["a"] ++ q) = some (.str s) ∧
        (s = "dummy" ∨ (mapGet ([("y", "2")] : Labels) s).isSome = true) :=
  ⟨⟨(recursivelyFillInMap_pruned [("x", "1")] [("x", "1"), ("dummy", "got to the end")]
      sampleTemplate [("a", .obj [("b", .str "1")])] (by decide) rfl).2.2.1 ["a"]
      [("b", .str "x")] (by simp) rfl,
    (recursivelyFillInMap_pruned [("x", "1")] [("x", "1"), ("dummy", "got to the end")]
      sampleTemplate [("a", .obj [("b", .str "1")])] (by decide) rfl).2.2.2.1 ["a"]
      [("b", .str "x")] _ (by simp) rfl rfl,
    (recursivelyFillInMap_pruned [("x", "1")] [("x", "1"), ("dummy", "got to the end")]
      sampleTemplate [("a", .obj [("b", .str "1")])] (by decide) rfl).2.1 ["c"] "y" rfl,
    rfl⟩,
   fun h => absurd
    (((recursivelyFillInMap_pruned [("y", "2")] [("y", "2"), ("dummy", "got to the end")]
      sampleTemplate [("c", .str "2")] (by decide) rfl).2.2.1 ["a"]
      [("b", .str "x")] (by simp) rfl).mpr h) (by decide)⟩

end Awsemf
